import Mathlib

/-!
Verification of the causal trace-analysis engine: vector clocks,
causal-graph construction, topological sorting, transitive reduction and
causal-future safety checking, as implemented in the Go sources
(`types/vectorClock.go`, `dag/dag.go` and the experimental `main` copies).

Go maps `map[string]int` / `map[int][]int` are modelled as association
lists; a read of an absent key yields the zero value of the value type,
exactly as in Go (`vcGet` returns `0`, `lookupD` returns `[]`).
-/

namespace TraceAnalysis

/-! ## Vector clocks (`type VectorClock map[string]int`) -/

abbrev VC := List (String × Int)

/-- Go map read `vc[p]`: the value of the first entry for `p`, or `0` when
`p` is absent. -/
def vcGet (vc : VC) (p : String) : Int :=
  match vc with
  | [] => 0
  | (q, v) :: rest => if q = p then v else vcGet rest p

/-- The keys over which a Go `for p := range vc` loop iterates. -/
def vcKeys (vc : VC) : List String := vc.map Prod.fst

/-- All counters of the clock are non-negative (the data-model invariant:
counters start at zero and only ever increase). -/
def VCNonneg (vc : VC) : Prop := ∀ e ∈ vc, (0 : Int) ≤ e.2

/-- `types/vectorClock.go` `HappensBefore`: the loop ranges over the keys of
the receiver `vc` only.  The loop computes `lessOrEqual` (with early break on
a strictly greater coordinate) and `strictlyLess`; since the result is
`lessOrEqual && strictlyLess`, it equals "all receiver keys are `<=`"
and "some receiver key is `<`", independently of Go's map iteration order. -/
def typesHappensBefore (vc other : VC) : Bool :=
  (vcKeys vc).all (fun p => decide (vcGet vc p ≤ vcGet other p)) &&
  (vcKeys vc).any (fun p => decide (vcGet vc p < vcGet other p))

/-- The union key set built by the `HappensBefore` of the final `main` copy:
`keys := map[string]struct{}{}` filled from both operands.  `dedup` mirrors
the set semantics of the Go map. -/
def unionKeys (vc other : VC) : List String := (vcKeys vc ++ vcKeys other).dedup

/-- `HappensBefore` of the final `main` copy (part_001, lines 486-513): the
loop ranges over the union of the key sets of both operands.  As above, the
`lessOrEqual && strictlyLess` result is order-independent, so it equals
"all union keys are `<=` and some union key is `<`". -/
def HappensBefore (vc other : VC) : Bool :=
  (unionKeys vc other).all (fun p => decide (vcGet vc p ≤ vcGet other p)) &&
  (unionKeys vc other).any (fun p => decide (vcGet vc p < vcGet other p))

/-! ## Events, traces and the causal graph -/

inductive EventType where
  | send
  | receive
deriving DecidableEq

structure Event where
  type : EventType
  process : String
  vclock : VC
deriving DecidableEq

instance : Inhabited Event := ⟨⟨EventType.send, "", []⟩⟩

/-- The `CausalGraph` of the final `main` copy: `Events []Event`,
`Edges map[int][]int`, `Root []int`.  The edges map is modelled as an
association list. -/
structure CausalGraph where
  events : List Event
  edges : List (Nat × List Nat)
  root : List Nat
deriving DecidableEq

/-- Go map lookup `m[k]` returning presence information. -/
def lookupO (m : List (Nat × List Nat)) (k : Nat) : Option (List Nat) :=
  match m with
  | [] => none
  | (a, v) :: rest => if a = k then some v else lookupO rest k

/-- Go map read `m[k]`: the zero value `[]` when the key is absent. -/
def lookupD (m : List (Nat × List Nat)) (k : Nat) : List Nat :=
  (lookupO m k).getD []

/-- Go map write `m[k] = v`: replace the entry in place, or add it. -/
def mapSet (m : List (Nat × List Nat)) (k : Nat) (v : List Nat) :
    List (Nat × List Nat) :=
  match m with
  | [] => [(k, v)]
  | (a, w) :: rest => if a = k then (k, v) :: rest else (a, w) :: mapSet rest k v

/-- `trace[i].VClock` (indices are always in range in the Go code). -/
def clockAt (tr : List Event) (i : Nat) : VC := (tr.getD i default).vclock

def bumpN (f : Nat → Nat) (k : Nat) : Nat → Nat :=
  fun x => if x = k then f x + 1 else f x

/-- The ordered pairs `(i, j)` with `i < j < n`, in the iteration order of
the builder's nested loops `for i ...; for j := i+1 ...`. -/
def pairList (n : Nat) : List (Nat × Nat) :=
  (List.range n).flatMap
    (fun i => ((List.range n).filter (fun j => decide (i < j))).map (fun j => (i, j)))

/-- One iteration of the builder's inner loop on the pair `(i, j)` (with
`i < j`): add edge `i -> j` if `trace[i] -> trace[j]`, otherwise edge
`j -> i` if `trace[j] -> trace[i]`, bumping the in-degree of the target. -/
def addPair (tr : List Event) (st : List (Nat × List Nat) × (Nat → Nat))
    (p : Nat × Nat) : List (Nat × List Nat) × (Nat → Nat) :=
  if HappensBefore (clockAt tr p.1) (clockAt tr p.2) then
    (mapSet st.1 p.1 (lookupD st.1 p.1 ++ [p.2]), bumpN st.2 p.2)
  else if HappensBefore (clockAt tr p.2) (clockAt tr p.1) then
    (mapSet st.1 p.2 (lookupD st.1 p.2 ++ [p.1]), bumpN st.2 p.1)
  else st

/-- The first loop of `NewCausalGraph`: `g.Edges[i] = []` for each index. -/
def initEdges (n : Nat) : List (Nat × List Nat) :=
  (List.range n).map (fun i => (i, []))

/-- `NewCausalGraph` (part_001, lines 550-584): compare every unordered pair
of trace positions in both directions and record directed edges; roots are
the nodes of in-degree zero. -/
def buildState (tr : List Event) : List (Nat × List Nat) × (Nat → Nat) :=
  (pairList tr.length).foldl (addPair tr) (initEdges tr.length, fun _ => 0)

def NewCausalGraph (tr : List Event) : CausalGraph :=
  { events := tr
    edges := (buildState tr).1
    root := (List.range tr.length).filter (fun i => (buildState tr).2 i == 0) }

/-- The condition under which the builder records the directed edge
`u -> v`. -/
def addsEdge (tr : List Event) (u v : Nat) : Prop :=
  (u < v ∧ HappensBefore (clockAt tr u) (clockAt tr v) = true) ∨
    (v < u ∧ HappensBefore (clockAt tr v) (clockAt tr u) = false ∧
      HappensBefore (clockAt tr u) (clockAt tr v) = true)

instance (tr : List Event) (u v : Nat) : Decidable (addsEdge tr u v) := by
  unfold addsEdge
  infer_instance

/-- The unordered pair processed by the builder for positions `u`, `v`. -/
def pairKey (u v : Nat) : Nat × Nat := if u ≤ v then (u, v) else (v, u)

/-! ## Reachability along graph edges -/

/-- One edge step of an edge function `E`. -/
def eStep (E : Nat → List Nat) (a b : Nat) : Prop := b ∈ E a

/-- Reachability along one or more edges. -/
def ReachP (E : Nat → List Nat) : Nat → Nat → Prop := Relation.TransGen (eStep E)

/-- Reachability along zero or more edges. -/
def ReachS (E : Nat → List Nat) : Nat → Nat → Prop := Relation.ReflTransGen (eStep E)

def edgeFun (g : CausalGraph) : Nat → List Nat := lookupD g.edges

/-- No node is reachable from itself along one or more edges. -/
def AcyclicE (E : Nat → List Nat) : Prop := ∀ u, ¬ ReachP E u u

def Acyclic (g : CausalGraph) : Prop := AcyclicE (edgeFun g)

/-- Well-formedness of the edges map: distinct keys, and all keys and edge
targets below the number of events. -/
def Wf (g : CausalGraph) : Prop :=
  (g.edges.map Prod.fst).Nodup ∧
    ∀ e ∈ g.edges, e.1 < g.events.length ∧ ∀ v ∈ e.2, v < g.events.length

/-- Every node index has an entry in the edges map. -/
def KeysComplete (g : CausalGraph) : Prop :=
  ∀ i < g.events.length, i ∈ g.edges.map Prod.fst

/-! ## Topological sort (`topoSort`, Kahn's algorithm) -/

def bumpI (f : Nat → Int) (k : Nat) : Nat → Int :=
  fun x => if x = k then f x + 1 else f x

def decI (f : Nat → Int) (k : Nat) : Nat → Int :=
  fun x => if x = k then f x - 1 else f x

/-- `indeg` computation: `for _, es := range g.Edges { for _, v := range es
{ indeg[v]++ } }` (iteration order is irrelevant for the resulting counts). -/
def indegInit (es : List (Nat × List Nat)) : Nat → Int :=
  es.foldl (fun f e => e.2.foldl bumpI f) (fun _ => 0)

/-- The body of the successor loop: `indeg[v]--` followed by
`if indeg[v] == 0 { q = append(q, v) }`. -/
def kahnVisit (st : (Nat → Int) × List Nat) (v : Nat) : (Nat → Int) × List Nat :=
  let ind2 := decI st.1 v
  (ind2, if ind2 v == 0 then st.2 ++ [v] else st.2)

/-- The `for len(q) > 0` loop of `topoSort`: dequeue `u`, decrement the
in-degree of each successor, enqueueing those that reach zero.  The loop
provably performs at most `|q0| + Σ |adjacency|` iterations, which the fuel
argument of `topoSort` covers, so the fuel-exhaustion branch is never
taken on the states reachable from `topoSort`'s initial state. -/
def kahnLoop (E : Nat → List Nat) : Nat → List Nat → (Nat → Int) → List Nat → List Nat
  | 0, _q, _ind, out => out
  | _ + 1, [], _ind, out => out
  | fuel + 1, u :: q, ind, out =>
    let st := (E u).foldl kahnVisit (ind, q)
    kahnLoop E fuel st.2 st.1 (out ++ [u])

def totalTargets (es : List (Nat × List Nat)) : Nat :=
  (es.map (fun e => e.2.length)).sum

/-- `topoSort` (part_001, lines 611-639): Kahn's algorithm.  The initial
queue collects the indices of in-degree zero in increasing order
(`for i := range g.Events`). -/
def topoSort (g : CausalGraph) : List Nat :=
  kahnLoop (edgeFun g) (g.events.length + totalTargets g.edges)
    ((List.range g.events.length).filter (fun i => indegInit g.edges i == 0))
    (indegInit g.edges) []

/-- `a` occurs strictly before `b` in the list `l`. -/
def Precedes (l : List Nat) (a b : Nat) : Prop :=
  ∃ l1 l2, l = l1 ++ l2 ∧ a ∈ l1 ∧ b ∈ l2

/-- Total number of decrements applied to the in-degree of `v` once all of
`out` has been dequeued. -/
def decSum (E : Nat → List Nat) (out : List Nat) (v : Nat) : Int :=
  (out.map (fun u => ((E u).count v : Int))).sum

/-- Total number of occurrences of `v` as an edge target. -/
def totalCount (es : List (Nat × List Nat)) (v : Nat) : Int :=
  (es.map (fun e => (e.2.count v : Int))).sum

/-- The fuel potential of a loop state: queue length plus the adjacency mass
of the not-yet-dequeued keys. -/
def phi (es : List (Nat × List Nat)) (q out : List Nat) : Nat :=
  q.length + ((es.filter (fun e => !(e.1 ∈ out : Bool))).map (fun e => e.2.length)).sum

/-! ## Transitive reduction (`ReduceTransitive`) -/

def updF (f : Nat → List Nat) (k : Nat) (v : List Nat) : Nat → List Nat :=
  fun x => if x = k then v else f x

/-- The inner edge scan of `ReduceTransitive` for node `u`: drop an edge
whose target is already in `reachable[u]`, otherwise retain it and merge
`{v} ∪ reachable[v]` into `reachable[u]` (sets are lists up to membership;
`acc` is the evolving `reachable[u]`). -/
def scanEdges (reach : Nat → List Nat) : List Nat → List Nat → List Nat → List Nat × List Nat
  | [], kept, acc => (kept, acc)
  | v :: es, kept, acc =>
    if v ∈ acc then scanEdges reach es kept acc
    else scanEdges reach es (kept ++ [v]) (acc ++ v :: reach v)

/-- State of the reduction pass: the edges map and the `reachable` map
(a missing entry reads as the empty set, as in Go). -/
structure RState where
  edges : List (Nat × List Nat)
  reach : Nat → List Nat

/-- One iteration of the reduction's outer loop, processing node `u`. -/
def reduceStep (st : RState) (u : Nat) : RState :=
  let res := scanEdges st.reach (lookupD st.edges u) [] (st.reach u)
  { edges := mapSet st.edges u res.1, reach := updF st.reach u res.2 }

/-- `ReduceTransitive` (part_001, lines 586-609): process nodes in reverse
topological order, keeping only edges whose target is not yet reachable. -/
def ReduceTransitive (g : CausalGraph) : CausalGraph :=
  { g with
    edges := ((topoSort g).reverse.foldl reduceStep
      { edges := g.edges, reach := fun _ => [] }).edges }

/-! ## Safety checking (`CheckSafetyProperty` / `verifyFuture`) -/

def eventD (g : CausalGraph) (u : Nat) : Event := g.events.getD u default

mutual

/-- `verifyFuture` (part_001, lines 802-820): depth-first traversal with a
shared visited set (modelled as the list of visited nodes in marking order,
threaded through the recursion like the mutated Go map).  A node already
visited returns immediately; otherwise it is marked, its postcondition is
checked, and its successors are traversed.  The fuel argument only bounds
the recursion depth; `CheckSafetyProperty` supplies fuel `n + 1`, which is
provably sufficient, so the fuel-exhaustion branch is never taken there. -/
def verifyFuture (g : CausalGraph) (post : Nat → Event → Bool) :
    Nat → Nat → List Nat → Bool × List Nat
  | 0, _, vis => (true, vis)
  | fuel + 1, u, vis =>
    if u ∈ vis then (true, vis)
    else if post u (eventD g u) then
      verifyList g post fuel (edgeFun g u) (u :: vis)
    else (false, u :: vis)
termination_by fuel _u _vis => (fuel, 0)

/-- The `for _, l := range g.Edges[...]` loops: traverse each successor in
turn, threading the visited set, stopping at the first failure. -/
def verifyList (g : CausalGraph) (post : Nat → Event → Bool) :
    Nat → List Nat → List Nat → Bool × List Nat
  | _, [], vis => (true, vis)
  | fuel, v :: es, vis =>
    let r := verifyFuture g post fuel v vis
    if r.1 then verifyList g post fuel es r.2 else r
termination_by fuel es _vis => (fuel, es.length + 1)

end

/-- The traversal performed for one trigger `i`: visit all successors of
`i` with a fresh visited set. -/
def checkTrigger (g : CausalGraph) (post : Nat → Event → Bool) (i : Nat) :
    Bool × List Nat :=
  verifyList g post (g.events.length + 1) (edgeFun g i) []

/-- The nodes on which the postcondition is evaluated for trigger `i`
(exactly the nodes marked visited, in marking order). -/
def triggerVisited (g : CausalGraph) (post : Nat → Event → Bool) (i : Nat) :
    List Nat :=
  (checkTrigger g post i).2

/-- `CheckSafetyProperty` (part_001, lines 775-800): for every event index
satisfying the precondition, traverse its causal future and check the
postcondition, failing fast on the first violation. -/
def CheckSafetyProperty (g : CausalGraph) (pre : Event → Bool)
    (post : Nat → Event → Nat → Event → Bool) : Bool :=
  (List.range g.events.length).all (fun i =>
    if pre (eventD g i) then
      (checkTrigger g (fun fid fe => post i (eventD g i) fid fe) i).1
    else true)

/-! ## The other builder variants cited by the spec -/

/-- `types.Event` (with correlation id), as used by `dag/dag.go`. -/
structure TEvent where
  type : EventType
  process : String
  vclock : VC
  messageId : Int
deriving DecidableEq

instance : Inhabited TEvent := ⟨⟨EventType.send, "", [], 0⟩⟩

def lookupSD (m : List (String × List TEvent)) (k : String) : List TEvent :=
  match m with
  | [] => []
  | (a, v) :: rest => if a = k then v else lookupSD rest k

def mapSetS (m : List (String × List TEvent)) (k : String) (v : List TEvent) :
    List (String × List TEvent) :=
  match m with
  | [] => [(k, v)]
  | (a, w) :: rest => if a = k then (k, v) :: rest else (a, w) :: mapSetS rest k v

structure DAG where
  nodes : List (String × List TEvent)
  edges : List (TEvent × TEvent)
deriving DecidableEq

/-- `dag.BuildDAG` (dag/dag.go, lines 19-43): group events per process, then
add an edge for every pair `i < j` (trace order) with
`trace[i].VClock.HappensBefore(trace[j].VClock)` — the `types` comparison.
Only the forward direction `i` before `j` is ever tested. -/
def BuildDAG (tr : List TEvent) : DAG :=
  { nodes := tr.foldl (fun m e => mapSetS m e.process (lookupSD m e.process ++ [e])) []
    edges := (pairList tr.length).foldl (fun acc p =>
      if typesHappensBefore (tr.getD p.1 default).vclock (tr.getD p.2 default).vclock then
        acc ++ [(tr.getD p.1 default, tr.getD p.2 default)]
      else acc) [] }

/-- `Event` of the first `main` copy (part_001, lines 109-115). -/
structure AEvent where
  id : Nat
  type : EventType
  process : String
  messageId : Nat
  vclock : VC
deriving DecidableEq

instance : Inhabited AEvent := ⟨⟨0, EventType.send, "", 0, []⟩⟩

/-- `LessOrEqual` of the first `main` copy: ranges over the receiver's
entries only. -/
def mainALessOrEqual (vc other : VC) : Bool :=
  vc.all (fun e => decide (e.2 ≤ vcGet other e.1))

structure ACausalGraph where
  events : List (Nat × AEvent)
  edges : List (Nat × List Nat)
deriving DecidableEq

def mapSetA (m : List (Nat × AEvent)) (k : Nat) (v : AEvent) : List (Nat × AEvent) :=
  match m with
  | [] => [(k, v)]
  | (a, w) :: rest => if a = k then (k, v) :: rest else (a, w) :: mapSetA rest k v

/-- `BuildCausalGraph` (part_001, lines 133-151): initialize the maps, then
for every pair `i < j` in trace order add the edge `i -> j` when
`e1.VClock.LessOrEqual(e2.VClock) && !e2.VClock.LessOrEqual(e1.VClock)`.
No backward pair is ever tested. -/
def mainABuildCausalGraph (tr : List AEvent) : ACausalGraph :=
  let init : ACausalGraph :=
    tr.foldl (fun g e => { events := mapSetA g.events e.id e, edges := mapSet g.edges e.id [] })
      { events := [], edges := [] }
  { events := init.events
    edges := (pairList tr.length).foldl (fun m p =>
      let e1 := tr.getD p.1 default
      let e2 := tr.getD p.2 default
      if mainALessOrEqual e1.vclock e2.vclock && !(mainALessOrEqual e2.vclock e1.vclock) then
        mapSet m e1.id (lookupD m e1.id ++ [e2.id])
      else m) init.edges }

/-! ## Concrete instances used in the counterexample and witness theorems -/

/-- Two events recorded out of causal order: the event at trace position 1
happens-before the event at position 0. -/
def trBack : List Event :=
  [⟨EventType.send, "A", [("A", 2)]⟩, ⟨EventType.send, "A", [("A", 1)]⟩]

def trBackT : List TEvent :=
  [⟨EventType.send, "A", [("A", 2)], 1⟩, ⟨EventType.send, "A", [("A", 1)], 0⟩]

def trBackA : List AEvent :=
  [⟨0, EventType.send, "A", 1, [("A", 2)]⟩, ⟨1, EventType.send, "A", 0, [("A", 1)]⟩]

/-- A two-node cycle (not producible by the builder; used to exercise the
cycle-handling behaviour of `topoSort`/`ReduceTransitive`). -/
def cyclicGraph : CausalGraph :=
  { events := [default, default]
    edges := [(0, [1]), (1, [0])]
    root := [] }

/-- A three-event causal chain with a redundant transitive edge. -/
def trChain : List Event :=
  [⟨EventType.send, "A", [("A", 1), ("B", 0)]⟩,
   ⟨EventType.receive, "B", [("A", 1), ("B", 1)]⟩,
   ⟨EventType.send, "A", [("A", 2), ("B", 1)]⟩]

/-- An edge step of `E` whose source lies in the set `P` (paths through
already-processed nodes, whose adjacency lists the reduction never touches
again). -/
def EdgeVia (P : List Nat) (E : List (Nat × List Nat)) (a b : Nat) : Prop :=
  a ∈ P ∧ b ∈ lookupD E a

/-- Reachability in one or more steps, all of whose sources lie in `P`. -/
def ViaP (P : List Nat) (E : List (Nat × List Nat)) : Nat → Nat → Prop :=
  Relation.TransGen (EdgeVia P E)

/-- Invariant of the reduction pass after processing the nodes of `P`
(relative to the original edges map `m0`). -/
def ReduceInv (m0 : List (Nat × List Nat)) (P : List Nat) (st : RState) : Prop :=
  (∀ w, w ∉ P → st.reach w = []) ∧
  (∀ w ∈ P, ∀ x ∈ st.reach w, ViaP P st.edges w x) ∧
  (∀ a, a ∉ P → lookupD st.edges a = lookupD m0 a) ∧
  (∀ a ∈ P, ∀ b ∈ lookupD m0 a, b ∈ lookupD st.edges a ∨ ViaP P st.edges a b) ∧
  (∀ a, ∀ b ∈ lookupD st.edges a, b ∈ lookupD m0 a)

/-- Specification of one `verifyFuture` call at a given fuel: the visited
list grows by a block of newly marked nodes, stays duplicate-free and
in-range, ends up containing `u`, and every newly marked node is reachable
from `u`; on success every newly marked node passed the postcondition and
had all its successors visited, and on failure some node reachable from `u`
failed the postcondition.  The fuel hypothesis `n + 1 <= fuel + |vis|` is
what makes the fuel-exhaustion branch unreachable. -/
def VFok (g : CausalGraph) (post : Nat → Event → Bool) (fuel : Nat) : Prop :=
  ∀ (u : Nat) (vis : List Nat),
    vis.Nodup → (∀ x ∈ vis, x < g.events.length) → u < g.events.length →
    g.events.length + 1 ≤ fuel + vis.length →
    (∃ new, (verifyFuture g post fuel u vis).2 = new ++ vis) ∧
    (verifyFuture g post fuel u vis).2.Nodup ∧
    (∀ x ∈ (verifyFuture g post fuel u vis).2, x < g.events.length) ∧
    u ∈ (verifyFuture g post fuel u vis).2 ∧
    (∀ x ∈ (verifyFuture g post fuel u vis).2, x ∉ vis →
      ReachS (edgeFun g) u x) ∧
    ((verifyFuture g post fuel u vis).1 = true →
      ∀ x ∈ (verifyFuture g post fuel u vis).2, x ∉ vis →
        post x (eventD g x) = true ∧
        ∀ y ∈ edgeFun g x, y ∈ (verifyFuture g post fuel u vis).2) ∧
    ((verifyFuture g post fuel u vis).1 = false →
      ∃ w, ReachS (edgeFun g) u w ∧ post w (eventD g w) = false)

/-- The corresponding specification of one `verifyList` call. -/
def VLok (g : CausalGraph) (post : Nat → Event → Bool) (fuel : Nat)
    (es : List Nat) : Prop :=
  ∀ (vis : List Nat),
    vis.Nodup → (∀ x ∈ vis, x < g.events.length) →
    (∀ v ∈ es, v < g.events.length) →
    g.events.length + 1 ≤ fuel + vis.length →
    (∃ new, (verifyList g post fuel es vis).2 = new ++ vis) ∧
    (verifyList g post fuel es vis).2.Nodup ∧
    (∀ x ∈ (verifyList g post fuel es vis).2, x < g.events.length) ∧
    (∀ x ∈ (verifyList g post fuel es vis).2, x ∉ vis →
      ∃ v ∈ es, ReachS (edgeFun g) v x) ∧
    ((verifyList g post fuel es vis).1 = true →
      (∀ v ∈ es, v ∈ (verifyList g post fuel es vis).2) ∧
      ∀ x ∈ (verifyList g post fuel es vis).2, x ∉ vis →
        post x (eventD g x) = true ∧
        ∀ y ∈ edgeFun g x, y ∈ (verifyList g post fuel es vis).2) ∧
    ((verifyList g post fuel es vis).1 = false →
      ∃ v ∈ es, ∃ w, ReachS (edgeFun g) v w ∧ post w (eventD g w) = false)

/-! ## Theorems -/

theorem vcGet_eq_zero_of_not_mem {vc : VC} {p : String} (h : p ∉ vcKeys vc) :
    vcGet vc p = 0 := by
  induction vc with
  | nil => rfl
  | cons e rest ih =>
    simp only [vcKeys, List.map_cons, List.mem_cons] at h
    push_neg at h
    obtain ⟨h1, h2⟩ := h
    simp only [vcGet]
    rw [if_neg, ih h2]
    intro hq
    exact h1 (by simp [hq])

theorem mem_unionKeys {a b : VC} {p : String} :
    p ∈ unionKeys a b ↔ p ∈ vcKeys a ∨ p ∈ vcKeys b := by
  simp [unionKeys, List.mem_dedup, List.mem_append]

/-- Characterization of the union-iterating `HappensBefore`: it decides the
standard strict partial order on vector clocks, every coordinate `<=` and at
least one coordinate `<`, where an absent key reads as `0`. -/
theorem happensBefore_iff (a b : VC) :
    HappensBefore a b = true ↔
      (∀ p, vcGet a p ≤ vcGet b p) ∧ (∃ p, vcGet a p < vcGet b p) := by
  unfold HappensBefore
  rw [Bool.and_eq_true, List.all_eq_true, List.any_eq_true]
  constructor
  · rintro ⟨hall, p, hp, hlt⟩
    refine ⟨?_, p, by simpa using hlt⟩
    intro q
    by_cases hq : q ∈ unionKeys a b
    · simpa using hall q hq
    · rw [mem_unionKeys] at hq
      push_neg at hq
      rw [vcGet_eq_zero_of_not_mem hq.1, vcGet_eq_zero_of_not_mem hq.2]
  · rintro ⟨hall, p, hlt⟩
    refine ⟨fun q _ => by simpa using hall q, p, ?_, by simpa using hlt⟩
    rw [mem_unionKeys]
    by_contra hq
    push_neg at hq
    rw [vcGet_eq_zero_of_not_mem hq.1, vcGet_eq_zero_of_not_mem hq.2] at hlt
    exact lt_irrefl 0 hlt

/-- Characterization of the receiver-keys-only `HappensBefore` of
`types/vectorClock.go`. -/
theorem typesHappensBefore_iff (a b : VC) :
    typesHappensBefore a b = true ↔
      (∀ p ∈ vcKeys a, vcGet a p ≤ vcGet b p) ∧
        (∃ p ∈ vcKeys a, vcGet a p < vcGet b p) := by
  unfold typesHappensBefore
  rw [Bool.and_eq_true, List.all_eq_true, List.any_eq_true]
  constructor
  · rintro ⟨hall, p, hp, hlt⟩
    exact ⟨fun q hq => by simpa using hall q hq, p, hp, by simpa using hlt⟩
  · rintro ⟨hall, p, hp, hlt⟩
    exact ⟨fun q hq => by simpa using hall q hq, p, hp, by simpa using hlt⟩

theorem hb_irrefl (c : VC) : HappensBefore c c = false := by
  rw [Bool.eq_false_iff]
  intro h
  rcases (happensBefore_iff c c).1 h with ⟨-, p, hp⟩
  exact lt_irrefl _ hp

theorem hb_antisymm (a b : VC) :
    ¬(HappensBefore a b = true ∧ HappensBefore b a = true) := by
  rintro ⟨hab, hba⟩
  rcases (happensBefore_iff a b).1 hab with ⟨-, p, hp⟩
  rcases (happensBefore_iff b a).1 hba with ⟨hle, -⟩
  exact absurd (hle p) (not_le.mpr hp)

theorem hb_trans {a b c : VC} (hab : HappensBefore a b = true)
    (hbc : HappensBefore b c = true) : HappensBefore a c = true := by
  rcases (happensBefore_iff a b).1 hab with ⟨le1, p, hp⟩
  rcases (happensBefore_iff b c).1 hbc with ⟨le2, -⟩
  exact (happensBefore_iff a c).2
    ⟨fun q => le_trans (le1 q) (le2 q), p, lt_of_lt_of_le hp (le2 p)⟩

theorem vcGet_nonneg {vc : VC} (h : VCNonneg vc) (p : String) :
    0 ≤ vcGet vc p := by
  induction vc with
  | nil => simp [vcGet]
  | cons e rest ih =>
    simp only [vcGet]
    split
    · exact h e (List.mem_cons_self e rest)
    · exact ih (fun x hx => h x (List.mem_cons_of_mem e hx))

theorem mem_vcKeys_of_get_ne_zero {vc : VC} {p : String} (h : vcGet vc p ≠ 0) :
    p ∈ vcKeys vc := by
  by_contra hp
  exact h (vcGet_eq_zero_of_not_mem hp)

/-- Antisymmetry also holds for the receiver-keys-only variant, provided the
clocks are non-negative (as all clocks of this system are). -/
theorem typesHb_antisymm (a b : VC) (ha : VCNonneg a) :
    ¬(typesHappensBefore a b = true ∧ typesHappensBefore b a = true) := by
  rintro ⟨hab, hba⟩
  rcases (typesHappensBefore_iff a b).1 hab with ⟨-, p, hp, hlt⟩
  rcases (typesHappensBefore_iff b a).1 hba with ⟨hle, -⟩
  have hbpos : 0 < vcGet b p := lt_of_le_of_lt (vcGet_nonneg ha p) hlt
  have hpb : p ∈ vcKeys b := mem_vcKeys_of_get_ne_zero (ne_of_gt hbpos)
  exact absurd (hle p hpb) (not_le.mpr hlt)

theorem typesHb_irrefl (c : VC) : typesHappensBefore c c = false := by
  rw [Bool.eq_false_iff]
  intro h
  rcases (typesHappensBefore_iff c c).1 h with ⟨-, p, -, hp⟩
  exact lt_irrefl _ hp

/-! ### Association-list (Go map) lemmas -/

theorem lookupO_mapSet (m : List (Nat × List Nat)) (k k' : Nat) (v : List Nat) :
    lookupO (mapSet m k v) k' = if k = k' then some v else lookupO m k' := by
  induction m with
  | nil => by_cases h : k = k' <;> simp [mapSet, lookupO, h]
  | cons e rest ih =>
    obtain ⟨a, w⟩ := e
    simp only [mapSet]
    by_cases hak : a = k
    · subst hak
      by_cases hkk : a = k' <;> simp [lookupO, hkk]
    · simp only [if_neg hak, lookupO]
      by_cases hak' : a = k'
      · have hkk' : k ≠ k' := fun h => hak (hak'.trans h.symm)
        simp [hak', hkk']
      · simp [hak', ih]

theorem lookupD_mapSet (m : List (Nat × List Nat)) (k k' : Nat) (v : List Nat) :
    lookupD (mapSet m k v) k' = if k = k' then v else lookupD m k' := by
  unfold lookupD
  rw [lookupO_mapSet]
  by_cases h : k = k' <;> simp [h]

theorem lookupO_eq_none_iff (m : List (Nat × List Nat)) (k : Nat) :
    lookupO m k = none ↔ k ∉ m.map Prod.fst := by
  induction m with
  | nil => simp [lookupO]
  | cons e rest ih =>
    obtain ⟨a, w⟩ := e
    simp only [lookupO, List.map_cons, List.mem_cons]
    by_cases hak : a = k
    · simp [hak]
    · rw [if_neg hak, ih]
      constructor
      · intro h hmem
        rcases hmem with h1 | h1
        · exact hak h1.symm
        · exact h h1
      · intro h h1
        exact h (Or.inr h1)

theorem lookupO_append (m₁ m₂ : List (Nat × List Nat)) (k : Nat) :
    lookupO (m₁ ++ m₂) k =
      match lookupO m₁ k with
      | some v => some v
      | none => lookupO m₂ k := by
  induction m₁ with
  | nil => simp [lookupO]
  | cons e rest ih =>
    obtain ⟨a, w⟩ := e
    by_cases hak : a = k <;> simp [lookupO, hak, ih]

theorem map_fst_mapSet_of_mem (m : List (Nat × List Nat)) (k : Nat)
    (v : List Nat) (h : k ∈ m.map Prod.fst) :
    (mapSet m k v).map Prod.fst = m.map Prod.fst := by
  induction m with
  | nil => simp at h
  | cons e rest ih =>
    obtain ⟨a, w⟩ := e
    simp only [mapSet]
    by_cases hak : a = k
    · simp [hak]
    · simp only [List.map_cons, List.mem_cons] at h
      rcases h with h | h
      · exact absurd h.symm hak
      · simp [if_neg hak, ih h]

theorem lookupO_of_mem_of_nodup {m : List (Nat × List Nat)}
    (hnd : (m.map Prod.fst).Nodup) {e : Nat × List Nat} (he : e ∈ m) :
    lookupO m e.1 = some e.2 := by
  induction m with
  | nil => simp at he
  | cons x rest ih =>
    obtain ⟨a, w⟩ := x
    simp only [List.map_cons, List.nodup_cons] at hnd
    rcases List.mem_cons.1 he with he | he
    · subst he
      simp [lookupO]
    · have hne : a ≠ e.1 := by
        intro h
        exact hnd.1 (h ▸ (List.mem_map.2 ⟨e, he, rfl⟩))
      simp [lookupO, hne, ih hnd.2 he]

/-! ### Builder characterization -/

theorem initEdges_map_fst (n : Nat) :
    (initEdges n).map Prod.fst = List.range n := by
  simp [initEdges, List.map_map, Function.comp_def]

theorem lookupO_initEdges (n k : Nat) :
    lookupO (initEdges n) k = if k < n then some [] else none := by
  induction n with
  | zero => simp [initEdges, lookupO]
  | succ n ih =>
    have : initEdges (n + 1) = initEdges n ++ [(n, [])] := by
      simp [initEdges, List.range_succ]
    rw [this, lookupO_append, ih]
    by_cases h1 : k < n
    · simp [h1, Nat.lt_succ_of_lt h1]
    · by_cases h2 : k = n
      · simp [h1, h2, lookupO]
      · have h3 : ¬ k < n + 1 := by omega
        have h4 : n ≠ k := fun h => h2 h.symm
        simp [h1, h3, lookupO, h4]

theorem lookupD_initEdges (n k : Nat) : lookupD (initEdges n) k = [] := by
  unfold lookupD
  rw [lookupO_initEdges]
  by_cases h : k < n <;> simp [h]

theorem mem_pairList {n a b : Nat} :
    (a, b) ∈ pairList n ↔ a < b ∧ b < n := by
  simp only [pairList, List.mem_flatMap, List.mem_map, List.mem_filter,
    List.mem_range, decide_eq_true_eq]
  constructor
  · rintro ⟨i, hi, j, ⟨hj, hij⟩, hab⟩
    obtain ⟨rfl, rfl⟩ := Prod.mk.injEq .. ▸ hab
    omega
  · rintro ⟨hab, hb⟩
    exact ⟨a, by omega, b, ⟨hb, hab⟩, rfl⟩

theorem nodup_pairList (n : Nat) : (pairList n).Nodup := by
  apply List.nodup_flatMap.2
  refine ⟨fun i _ => ?_, ?_⟩
  · refine List.Nodup.map ?_ (List.Nodup.filter _ (List.nodup_range n))
    intro a b hab
    simpa using congrArg Prod.snd hab
  · refine List.Pairwise.imp ?_ (List.nodup_range n)
    intro i j hij
    simp only [Function.onFun, List.disjoint_left]
    rintro p hp hq
    simp only [List.mem_map, List.mem_filter] at hp hq
    obtain ⟨x, -, rfl⟩ := hp
    obtain ⟨y, -, hy⟩ := hq
    have hji : j = i := by simpa using congrArg Prod.fst hy
    exact hij hji.symm

theorem pairKey_mem_pairList {n u v : Nat} :
    pairKey u v ∈ pairList n ↔ u ≠ v ∧ u < n ∧ v < n := by
  unfold pairKey
  by_cases h : u ≤ v <;> simp [h, mem_pairList] <;> omega

theorem pairKey_eq_iff {i j u v : Nat} (hij : i < j) :
    pairKey u v = (i, j) ↔ (u = i ∧ v = j) ∨ (u = j ∧ v = i) := by
  unfold pairKey
  by_cases h : u ≤ v <;> simp [h, Prod.ext_iff] <;> omega

/-- Effect of one builder iteration on one adjacency-list occurrence count. -/
theorem count_after_addPair (tr : List Event)
    (S : List (Nat × List Nat) × (Nat → Nat)) {i j : Nat} (hij : i < j)
    (u v : Nat) :
    (lookupD (addPair tr S (i, j)).1 u).count v =
      (lookupD S.1 u).count v +
        (if pairKey u v = (i, j) ∧ addsEdge tr u v then 1 else 0) := by
  by_cases hb1 : HappensBefore (clockAt tr i) (clockAt tr j) = true
  · have h1 : (addPair tr S (i, j)).1 = mapSet S.1 i (lookupD S.1 i ++ [j]) := by
      simp [addPair, hb1]
    rw [h1, lookupD_mapSet]
    by_cases hui : i = u
    · subst hui
      by_cases hvj : v = j
      · subst hvj
        have hadds : addsEdge tr i v := Or.inl ⟨hij, hb1⟩
        simp [pairKey, Nat.le_of_lt hij, hadds, List.count_append]
      · have hnk : ¬(pairKey i v = (i, j) ∧ addsEdge tr i v) := by
          rintro ⟨hpk, -⟩
          rcases (pairKey_eq_iff hij).1 hpk with ⟨-, h⟩ | ⟨h, -⟩
          · exact hvj h
          · omega
        have hjv : ¬ j = v := fun h => hvj h.symm
        simp [hnk, List.count_append, List.count_singleton', hjv]
    · rw [if_neg hui]
      have hnk : ¬(pairKey u v = (i, j) ∧ addsEdge tr u v) := by
        rintro ⟨hpk, hadds⟩
        rcases (pairKey_eq_iff hij).1 hpk with ⟨h, -⟩ | ⟨hu, hv⟩
        · exact hui h.symm
        · subst hu; subst hv
          rcases hadds with ⟨h, -⟩ | ⟨-, hf, -⟩
          · omega
          · rw [hb1] at hf; exact Bool.noConfusion hf
      simp [hnk]
  · by_cases hb2 : HappensBefore (clockAt tr j) (clockAt tr i) = true
    · have h1 : (addPair tr S (i, j)).1 = mapSet S.1 j (lookupD S.1 j ++ [i]) := by
        simp [addPair, hb1, hb2]
      have hb1f : HappensBefore (clockAt tr i) (clockAt tr j) = false :=
        Bool.eq_false_iff.2 hb1
      rw [h1, lookupD_mapSet]
      by_cases huj : j = u
      · subst huj
        by_cases hvi : v = i
        · subst hvi
          have hadds : addsEdge tr j v := Or.inr ⟨hij, hb1f, hb2⟩
          have hpk : pairKey j v = (v, j) := by
            unfold pairKey
            simp [show ¬ j ≤ v by omega]
          simp [hpk, hadds, List.count_append]
        · have hnk : ¬(pairKey j v = (i, j) ∧ addsEdge tr j v) := by
            rintro ⟨hpk, -⟩
            rcases (pairKey_eq_iff hij).1 hpk with ⟨h, -⟩ | ⟨-, h⟩
            · omega
            · exact hvi h
          have hiv : ¬ i = v := fun h => hvi h.symm
          simp [hnk, List.count_append, List.count_singleton', hiv]
      · rw [if_neg huj]
        have hnk : ¬(pairKey u v = (i, j) ∧ addsEdge tr u v) := by
          rintro ⟨hpk, hadds⟩
          rcases (pairKey_eq_iff hij).1 hpk with ⟨hu, hv⟩ | ⟨h, -⟩
          · subst hu; subst hv
            rcases hadds with ⟨-, hf⟩ | ⟨h, -, -⟩
            · rw [hf] at hb1; exact hb1 rfl
            · omega
          · exact huj h.symm
        simp [hnk]
    · have h1 : (addPair tr S (i, j)).1 = S.1 := by
        simp [addPair, hb1, hb2]
      have hnk : ¬(pairKey u v = (i, j) ∧ addsEdge tr u v) := by
        rintro ⟨hpk, hadds⟩
        rcases (pairKey_eq_iff hij).1 hpk with ⟨hu, hv⟩ | ⟨hu, hv⟩ <;>
          subst hu <;> subst hv
        · rcases hadds with ⟨-, hf⟩ | ⟨h, -, -⟩
          · exact hb1 hf
          · omega
        · rcases hadds with ⟨h, -⟩ | ⟨-, -, hf⟩
          · omega
          · exact hb2 hf
      simp [h1, hnk]

/-- Occurrence counts in the builder's adjacency lists, after processing an
arbitrary prefix of the pair list. -/
theorem build_count_aux (tr : List Event) (ps : List (Nat × Nat))
    (hmem : ∀ q ∈ ps, q.1 < q.2 ∧ q.2 < tr.length) (hnd : ps.Nodup)
    (u v : Nat) :
    (lookupD (ps.foldl (addPair tr) (initEdges tr.length, fun _ => 0)).1 u).count v =
      if pairKey u v ∈ ps ∧ addsEdge tr u v then 1 else 0 := by
  induction ps using List.reverseRecOn with
  | nil => simp [lookupD_initEdges]
  | append_singleton ps p ih =>
    have hps : ∀ q ∈ ps, q.1 < q.2 ∧ q.2 < tr.length := fun q hq =>
      hmem q (List.mem_append_left _ hq)
    have hndps : ps.Nodup := hnd.of_append_left
    have hpnot : p ∉ ps := by
      intro hp
      rcases List.nodup_append.1 hnd with ⟨-, -, hdisj⟩
      exact hdisj hp (List.mem_singleton_self p)
    obtain ⟨i, j⟩ := p
    have hij : i < j := (hmem (i, j) (by simp)).1
    rw [List.foldl_append, List.foldl_cons, List.foldl_nil,
      count_after_addPair tr _ hij, ih hps hndps]
    by_cases hadds : addsEdge tr u v
    · by_cases hpk : pairKey u v = (i, j)
      · have hnotps : pairKey u v ∉ ps := hpk ▸ hpnot
        rw [if_neg (fun hc => hnotps hc.1), if_pos ⟨hpk, hadds⟩,
          if_pos ⟨List.mem_append.2 (Or.inr (by rw [hpk]; exact List.mem_singleton_self _)),
            hadds⟩]
      · simp [hadds, hpk, List.mem_append]
    · simp [hadds]

/-- Occurrence counts of the final builder adjacency lists. -/
theorem build_edges_count (tr : List Event) (u v : Nat) :
    (edgeFun (NewCausalGraph tr) u).count v =
      if pairKey u v ∈ pairList tr.length ∧ addsEdge tr u v then 1 else 0 := by
  have h := build_count_aux tr (pairList tr.length)
    (fun q hq => by
      obtain ⟨a, b⟩ := q
      exact ⟨(mem_pairList.1 hq).1, (mem_pairList.1 hq).2⟩)
    (nodup_pairList _) u v
  exact h

/-- Membership characterization of the builder's edges: there is an edge
`u -> v` exactly when both indices are in range and
`events[u].clock.HappensBefore(events[v].clock)` holds. -/
theorem mem_build_edges (tr : List Event) (u v : Nat) :
    v ∈ edgeFun (NewCausalGraph tr) u ↔
      u < tr.length ∧ v < tr.length ∧
        HappensBefore (clockAt tr u) (clockAt tr v) = true := by
  have hcount := build_edges_count tr u v
  constructor
  · intro hv
    have hpos : 0 < (edgeFun (NewCausalGraph tr) u).count v :=
      List.count_pos_iff.2 hv
    rw [hcount] at hpos
    by_cases h : pairKey u v ∈ pairList tr.length ∧ addsEdge tr u v
    · obtain ⟨hpk, hadds⟩ := h
      rw [pairKey_mem_pairList] at hpk
      rcases hadds with ⟨-, hb⟩ | ⟨-, -, hb⟩ <;> exact ⟨hpk.2.1, hpk.2.2, hb⟩
    · rw [if_neg h] at hpos
      omega
  · rintro ⟨hu, hv, hb⟩
    rw [← List.count_pos_iff, hcount]
    have hne : u ≠ v := by
      intro h
      subst h
      rw [hb_irrefl] at hb
      exact Bool.noConfusion hb
    have hadds : addsEdge tr u v := by
      rcases Nat.lt_or_ge u v with h | h
      · exact Or.inl ⟨h, hb⟩
      · have hvu : v < u := by omega
        have hf : HappensBefore (clockAt tr v) (clockAt tr u) = false := by
          rw [Bool.eq_false_iff]
          intro hc
          exact hb_antisymm _ _ ⟨hb, hc⟩
        exact Or.inr ⟨hvu, hf, hb⟩
    rw [if_pos ⟨pairKey_mem_pairList.2 ⟨hne, hu, hv⟩, hadds⟩]
    omega

/-- The builder produces no duplicate edges: each adjacency list is nodup. -/
theorem nodup_build_edges (tr : List Event) (u : Nat) :
    (edgeFun (NewCausalGraph tr) u).Nodup := by
  rw [List.nodup_iff_count_le_one]
  intro v
  rw [build_edges_count]
  by_cases h : pairKey u v ∈ pairList tr.length ∧ addsEdge tr u v <;> simp [h]

/-- The key set of the builder's edges map is exactly `0 .. n-1`, after
processing an arbitrary prefix of the pair list. -/
theorem build_keys_aux (tr : List Event) (ps : List (Nat × Nat))
    (hmem : ∀ q ∈ ps, q.1 < q.2 ∧ q.2 < tr.length) :
    ((ps.foldl (addPair tr) (initEdges tr.length, fun _ => 0)).1).map Prod.fst =
      List.range tr.length := by
  induction ps using List.reverseRecOn with
  | nil => simp [initEdges_map_fst]
  | append_singleton ps p ih0 =>
    have hps : ∀ q ∈ ps, q.1 < q.2 ∧ q.2 < tr.length := fun q hq =>
      hmem q (List.mem_append_left _ hq)
    have ih : ∀ _ : ∀ q ∈ ps, q.1 < q.2 ∧ q.2 < tr.length,
        ((ps.foldl (addPair tr) (initEdges tr.length, fun _ => 0)).1).map Prod.fst =
          List.range tr.length := fun h => ih0 h
    obtain ⟨i, j⟩ := p
    have hij : i < j := (hmem (i, j) (by simp)).1
    have hjn : j < tr.length := (hmem (i, j) (by simp)).2
    have hkeys := ih hps
    rw [List.foldl_append, List.foldl_cons, List.foldl_nil]
    by_cases hb1 : HappensBefore (clockAt tr i) (clockAt tr j) = true
    · have h1 : (addPair tr (ps.foldl (addPair tr) (initEdges tr.length, fun _ => 0)) (i, j)).1 =
          mapSet (ps.foldl (addPair tr) (initEdges tr.length, fun _ => 0)).1 i
            (lookupD (ps.foldl (addPair tr) (initEdges tr.length, fun _ => 0)).1 i ++ [j]) := by
        simp [addPair, hb1]
      rw [h1, map_fst_mapSet_of_mem _ _ _ (by rw [hkeys]; exact List.mem_range.2 (by omega)), hkeys]
    · by_cases hb2 : HappensBefore (clockAt tr j) (clockAt tr i) = true
      · have h1 : (addPair tr (ps.foldl (addPair tr) (initEdges tr.length, fun _ => 0)) (i, j)).1 =
            mapSet (ps.foldl (addPair tr) (initEdges tr.length, fun _ => 0)).1 j
              (lookupD (ps.foldl (addPair tr) (initEdges tr.length, fun _ => 0)).1 j ++ [i]) := by
          simp [addPair, hb1, hb2]
        rw [h1, map_fst_mapSet_of_mem _ _ _ (by rw [hkeys]; exact List.mem_range.2 hjn), hkeys]
      · have h1 : (addPair tr (ps.foldl (addPair tr) (initEdges tr.length, fun _ => 0)) (i, j)).1 =
            (ps.foldl (addPair tr) (initEdges tr.length, fun _ => 0)).1 := by
          simp [addPair, hb1, hb2]
        rw [h1, hkeys]

theorem build_keys (tr : List Event) :
    (NewCausalGraph tr).edges.map Prod.fst = List.range tr.length := by
  show ((buildState tr).1).map Prod.fst = List.range tr.length
  unfold buildState
  refine build_keys_aux tr _ (fun q hq => ?_)
  obtain ⟨a, b⟩ := q
  exact ⟨(mem_pairList.1 hq).1, (mem_pairList.1 hq).2⟩

theorem build_wf (tr : List Event) : Wf (NewCausalGraph tr) := by
  constructor
  · rw [build_keys]
    exact List.nodup_range _
  · intro e he
    have hkey : e.1 ∈ (NewCausalGraph tr).edges.map Prod.fst :=
      List.mem_map.2 ⟨e, he, rfl⟩
    rw [build_keys, List.mem_range] at hkey
    refine ⟨hkey, ?_⟩
    intro v hv
    have hnd : ((NewCausalGraph tr).edges.map Prod.fst).Nodup := by
      rw [build_keys]; exact List.nodup_range _
    have hlo : lookupO (NewCausalGraph tr).edges e.1 = some e.2 :=
      lookupO_of_mem_of_nodup hnd he
    have hmem : v ∈ edgeFun (NewCausalGraph tr) e.1 := by
      unfold edgeFun lookupD
      rw [hlo]
      exact hv
    exact ((mem_build_edges tr e.1 v).1 hmem).2.1

theorem build_keysComplete (tr : List Event) : KeysComplete (NewCausalGraph tr) := by
  intro i hi
  rw [build_keys]
  exact List.mem_range.2 hi

/-- Every builder edge comes from a strict happens-before comparison. -/
theorem build_edge_hb (tr : List Event) {u v : Nat}
    (h : v ∈ edgeFun (NewCausalGraph tr) u) :
    HappensBefore (clockAt tr u) (clockAt tr v) = true :=
  ((mem_build_edges tr u v).1 h).2.2

/-- The built causal graph is acyclic. -/
theorem build_acyclic (tr : List Event) : Acyclic (NewCausalGraph tr) := by
  intro u hreach
  have hhb : ∀ a b, ReachP (edgeFun (NewCausalGraph tr)) a b →
      HappensBefore (clockAt tr a) (clockAt tr b) = true := by
    intro a b h
    induction h with
    | single hstep => exact build_edge_hb tr hstep
    | tail hab hstep ih => exact hb_trans ih (build_edge_hb tr hstep)
  have := hhb u u hreach
  rw [hb_irrefl] at this
  exact Bool.noConfusion this

/-! ### Kahn's algorithm: helper lemmas -/

theorem mem_of_lookupO {m : List (Nat × List Nat)} {k : Nat} {l : List Nat}
    (h : lookupO m k = some l) : (k, l) ∈ m := by
  induction m with
  | nil => simp [lookupO] at h
  | cons e rest ih =>
    obtain ⟨a, w⟩ := e
    by_cases hak : a = k
    · subst hak
      simp [lookupO] at h
      simp [h]
    · simp only [lookupO, if_neg hak] at h
      exact List.mem_cons_of_mem _ (ih h)

theorem lookupD_eq_of_mem_nodup {m : List (Nat × List Nat)}
    (hnd : (m.map Prod.fst).Nodup) {e : Nat × List Nat} (he : e ∈ m) :
    lookupD m e.1 = e.2 := by
  unfold lookupD
  rw [lookupO_of_mem_of_nodup hnd he]
  rfl

theorem mem_entry_of_mem_lookupD {m : List (Nat × List Nat)} {u v : Nat}
    (h : v ∈ lookupD m u) : ∃ l, (u, l) ∈ m ∧ v ∈ l := by
  unfold lookupD at h
  cases hl : lookupO m u with
  | none => rw [hl] at h; simp at h
  | some l =>
    rw [hl] at h
    exact ⟨l, mem_of_lookupO hl, h⟩

theorem totalCount_nonneg (m : List (Nat × List Nat)) (v : Nat) :
    0 ≤ totalCount m v := by
  unfold totalCount
  apply List.sum_nonneg
  intro x hx
  simp only [List.mem_map] at hx
  obtain ⟨e, -, rfl⟩ := hx
  exact Int.ofNat_nonneg _

theorem exists_pos_entry {m : List (Nat × List Nat)} {v : Nat}
    (h : 1 ≤ totalCount m v) : ∃ e ∈ m, v ∈ e.2 := by
  induction m with
  | nil => simp [totalCount] at h
  | cons e rest ih =>
    by_cases hv : v ∈ e.2
    · exact ⟨e, List.mem_cons_self _ _, hv⟩
    · have hz : e.2.count v = 0 := List.count_eq_zero.2 hv
      have : totalCount (e :: rest) v = totalCount rest v := by
        simp [totalCount, hz]
      rw [this] at h
      obtain ⟨e2, he2, hv2⟩ := ih h
      exact ⟨e2, List.mem_cons_of_mem _ he2, hv2⟩

theorem count_zero_of_total_nonpos {m : List (Nat × List Nat)} {v : Nat}
    (h : totalCount m v ≤ 0) {e : Nat × List Nat} (he : e ∈ m) : v ∉ e.2 := by
  intro hv
  have h1 : 1 ≤ totalCount m v := by
    have : (1 : Int) ≤ (e.2.count v : Int) := by
      have := List.count_pos_iff.2 hv
      omega
    have hle : ((e.2.count v : Int)) ≤ totalCount m v := by
      unfold totalCount
      refine List.single_le_sum ?_ _ (List.mem_map.2 ⟨e, he, rfl⟩)
      intro x hx
      simp only [List.mem_map] at hx
      obtain ⟨e2, -, rfl⟩ := hx
      exact Int.ofNat_nonneg _
    omega
  omega

/-- Splitting off the contribution of one not-yet-dequeued key from a sum
over the remaining entries. -/
theorem filter_erase_sum {M : Type*} [AddCommMonoid M] (w : Nat × List Nat → M)
    (m : List (Nat × List Nat)) (out : List Nat) (u : Nat)
    (hknd : (m.map Prod.fst).Nodup) (hu : u ∉ out) (hw : w (u, []) = 0) :
    ((m.filter (fun e => !(e.1 ∈ out : Bool))).map w).sum =
      w (u, lookupD m u) +
        ((m.filter (fun e => !(e.1 ∈ out : Bool) && !(e.1 = u : Bool))).map w).sum := by
  induction m with
  | nil => simp [lookupD, lookupO, hw]
  | cons e rest ih =>
    obtain ⟨k, l⟩ := e
    simp only [List.map_cons, List.nodup_cons] at hknd
    have hknd2 : (rest.map Prod.fst).Nodup := hknd.2
    by_cases hku : k = u
    · subst hku
      have hrest : ∀ e ∈ rest, e.1 ≠ k := by
        intro e he hek
        exact hknd.1 (hek ▸ List.mem_map.2 ⟨e, he, rfl⟩)
      have hfeq : rest.filter (fun e => !(e.1 ∈ out : Bool) && !(e.1 = k : Bool)) =
          rest.filter (fun e => !(e.1 ∈ out : Bool)) := by
        apply List.filter_congr
        intro e he
        simp [hrest e he]
      have hlk : lookupD ((k, l) :: rest) k = l := by
        simp [lookupD, lookupO]
      rw [hlk]
      simp only [List.filter_cons]
      simp [hu, hfeq]
    · have hlk : lookupD ((k, l) :: rest) u = lookupD rest u := by
        simp [lookupD, lookupO, hku]
      rw [hlk]
      simp only [List.filter_cons]
      by_cases hko : k ∈ out
      · simp only [hko]
        simp
        exact ih hknd2
      · simp [hko, hku, List.map_cons, List.sum_cons, ih hknd2]
        rw [← add_assoc, add_comm (w (k, l)) (w (u, lookupD rest u)), add_assoc]

theorem decI_apply (f : Nat → Int) (k x : Nat) :
    decI f k x = if x = k then f x - 1 else f x := rfl

/-- Characterization of `topoSort`'s successor loop: every in-degree drops
by the number of decrements applied, and a node joins the queue exactly when
its in-degree first reaches zero. -/
theorem kfold_spec :
    ∀ (es : List Nat) (ind : Nat → Int) (q : List Nat),
      q.Nodup → (∀ x ∈ q, ind x ≤ 0) →
      (∀ x, (es.foldl kahnVisit (ind, q)).1 x = ind x - (es.count x : Int)) ∧
      (∀ x ∈ q, x ∈ (es.foldl kahnVisit (ind, q)).2) ∧
      (es.foldl kahnVisit (ind, q)).2.Nodup ∧
      (∀ x ∈ (es.foldl kahnVisit (ind, q)).2, (es.foldl kahnVisit (ind, q)).1 x ≤ 0) ∧
      (∀ x ∈ (es.foldl kahnVisit (ind, q)).2, x ∈ q ∨ (x ∈ es ∧ 1 ≤ ind x)) ∧
      (∀ v ∈ es, 1 ≤ ind v → ind v - (es.count v : Int) ≤ 0 →
        v ∈ (es.foldl kahnVisit (ind, q)).2) ∧
      (es.foldl kahnVisit (ind, q)).2.length ≤ q.length + es.length := by
  intro es
  induction es with
  | nil =>
    intro ind q hnd hle
    refine ⟨fun x => by simp, fun x hx => hx, hnd, hle, fun x hx => Or.inl hx,
      fun v hv => absurd hv (List.not_mem_nil v), by simp⟩
  | cons v es ih =>
    intro ind q hnd hle
    rw [List.foldl_cons]
    have hstep : kahnVisit (ind, q) v =
        (decI ind v, if decI ind v v == 0 then q ++ [v] else q) := rfl
    by_cases h0 : decI ind v v = 0
    · have hq1 : kahnVisit (ind, q) v = (decI ind v, q ++ [v]) := by
        rw [hstep]
        simp [h0]
      have hv1 : ind v = 1 := by
        rw [decI_apply] at h0
        simp at h0
        omega
      have hvq : v ∉ q := by
        intro hvq
        have := hle v hvq
        omega
      have hnd1 : (q ++ [v]).Nodup := by
        rw [List.nodup_append]
        exact ⟨hnd, List.nodup_singleton v, by
          intro x hx hx1
          rw [List.mem_singleton] at hx1
          subst hx1
          exact hvq hx⟩
      have hle1 : ∀ x ∈ q ++ [v], decI ind v x ≤ 0 := by
        intro x hx
        rw [decI_apply]
        rcases List.mem_append.1 hx with hx | hx
        · have := hle x hx
          split <;> omega
        · rw [List.mem_singleton] at hx
          subst hx
          simp [hv1]
      obtain ⟨ih1, ih2, ih3, ih4, ih5, ih6, ih7⟩ := ih (decI ind v) (q ++ [v]) hnd1 hle1
      rw [hq1]
      refine ⟨?_, ?_, ih3, ih4, ?_, ?_, ?_⟩
      · intro x
        rw [ih1, decI_apply, List.count_cons]
        by_cases hxv : x = v <;> simp [hxv] <;> omega
      · intro x hx
        exact ih2 x (List.mem_append_left _ hx)
      · intro x hx
        rcases ih5 x hx with hx1 | hx1
        · rcases List.mem_append.1 hx1 with hx2 | hx2
          · exact Or.inl hx2
          · rw [List.mem_singleton] at hx2
            subst hx2
            exact Or.inr ⟨List.mem_cons_self _ _, by omega⟩
        · refine Or.inr ⟨List.mem_cons_of_mem _ hx1.1, ?_⟩
          have := hx1.2
          rw [decI_apply] at this
          split at this <;> omega
      · intro w hw h1 h2
        rcases List.mem_cons.1 hw with hwv | hwes
        · subst hwv
          exact ih2 w (List.mem_append_right _ (List.mem_singleton_self w))
        · by_cases hwv : w = v
          · subst hwv
            exact ih2 w (List.mem_append_right _ (List.mem_singleton_self w))
          · refine ih6 w hwes ?_ ?_
            · rw [decI_apply, if_neg hwv]
              exact h1
            · rw [decI_apply, if_neg hwv]
              rw [List.count_cons] at h2
              have hbeq : (v == w) = false := by
                simp
                intro h
                exact hwv h.symm
              rw [hbeq] at h2
              push_cast at h2 ⊢
              omega
      · calc (es.foldl kahnVisit (decI ind v, q ++ [v])).2.length
            ≤ (q ++ [v]).length + es.length := ih7
          _ = q.length + (v :: es).length := by simp; omega
    · have hq1 : kahnVisit (ind, q) v = (decI ind v, q) := by
        rw [hstep]
        simp [h0]
      have hle1 : ∀ x ∈ q, decI ind v x ≤ 0 := by
        intro x hx
        rw [decI_apply]
        have := hle x hx
        split <;> omega
      obtain ⟨ih1, ih2, ih3, ih4, ih5, ih6, ih7⟩ := ih (decI ind v) q hnd hle1
      rw [hq1]
      refine ⟨?_, ih2, ih3, ih4, ?_, ?_, ?_⟩
      · intro x
        rw [ih1, decI_apply, List.count_cons]
        by_cases hxv : x = v <;> simp [hxv] <;> omega
      · intro x hx
        rcases ih5 x hx with hx1 | hx1
        · exact Or.inl hx1
        · refine Or.inr ⟨List.mem_cons_of_mem _ hx1.1, ?_⟩
          have := hx1.2
          rw [decI_apply] at this
          split at this <;> omega
      · intro w hw h1 h2
        rcases List.mem_cons.1 hw with hwv | hwes
        · subst hwv
          rw [List.count_cons] at h2
          simp at h2
          rw [decI_apply] at h0
          simp at h0
          by_cases hwes2 : w ∈ es
          · refine ih6 w hwes2 ?_ ?_
            · rw [decI_apply]
              simp
              omega
            · rw [decI_apply]
              simp
              omega
          · have hz : es.count w = 0 := List.count_eq_zero.2 hwes2
            rw [hz] at h2
            push_cast at h2
            omega
        · by_cases hwv : w = v
          · subst hwv
            rw [List.count_cons] at h2
            simp at h2
            rw [decI_apply] at h0
            simp at h0
            by_cases hwes2 : w ∈ es
            · refine ih6 w hwes2 ?_ ?_
              · rw [decI_apply]
                simp
                omega
              · rw [decI_apply]
                simp
                omega
            · have hz : es.count w = 0 := List.count_eq_zero.2 hwes2
              rw [hz] at h2
              push_cast at h2
              omega
          · refine ih6 w hwes ?_ ?_
            · rw [decI_apply, if_neg hwv]
              exact h1
            · rw [decI_apply, if_neg hwv]
              rw [List.count_cons] at h2
              have hbeq : (v == w) = false := by
                simp
                intro h
                exact hwv h.symm
              rw [hbeq] at h2
              push_cast at h2 ⊢
              omega
      · calc (es.foldl kahnVisit (decI ind v, q)).2.length
            ≤ q.length + es.length := ih7
          _ ≤ q.length + (v :: es).length := by simp

theorem bumpI_foldl (l : List Nat) :
    ∀ (f : Nat → Int) (x : Nat), (l.foldl bumpI f) x = f x + (l.count x : Int) := by
  induction l with
  | nil => intro f x; simp
  | cons a l ih =>
    intro f x
    rw [List.foldl_cons, ih, List.count_cons]
    unfold bumpI
    by_cases hxa : x = a
    · subst hxa; simp; omega
    · have hax : (a == x) = false := by
        simp
        intro h
        exact hxa h.symm
      simp [hxa, hax]

theorem indegInit_eq (m : List (Nat × List Nat)) (v : Nat) :
    indegInit m v = totalCount m v := by
  suffices h : ∀ f : Nat → Int,
      (m.foldl (fun f e => e.2.foldl bumpI f) f) v = f v + totalCount m v by
    have := h (fun _ => 0)
    unfold indegInit
    rw [this]
    simp
  induction m with
  | nil => intro f; simp [totalCount]
  | cons e rest ih =>
    intro f
    rw [List.foldl_cons, ih, bumpI_foldl]
    simp [totalCount]
    omega

theorem filter_out_append (m : List (Nat × List Nat)) (out : List Nat) (u : Nat) :
    m.filter (fun e => !(e.1 ∈ out ++ [u] : Bool)) =
      m.filter (fun e => !(e.1 ∈ out : Bool) && !(e.1 = u : Bool)) := by
  apply List.filter_congr
  intro e _
  by_cases h1 : e.1 ∈ out <;> by_cases h2 : e.1 = u <;>
    simp [h1, h2, List.mem_append]

theorem sources_dequeued {m : List (Nat × List Nat)} {out : List Nat} {v : Nat}
    (hc : totalCount (m.filter (fun e => !(e.1 ∈ out : Bool))) v ≤ 0)
    {u : Nat} (hv : v ∈ lookupD m u) : u ∈ out := by
  obtain ⟨l, hl, hvl⟩ := mem_entry_of_mem_lookupD hv
  by_contra hout
  have hmemf : (u, l) ∈ m.filter (fun e => !(e.1 ∈ out : Bool)) :=
    List.mem_filter.2 ⟨hl, by simpa using hout⟩
  exact (count_zero_of_total_nonpos hc hmemf) hvl

theorem stuck_has_source {m : List (Nat × List Nat)} {n : Nat} {out : List Nat}
    (hknd : (m.map Prod.fst).Nodup) (hkb : ∀ e ∈ m, e.1 < n)
    {v : Nat} (hpos : 1 ≤ totalCount (m.filter (fun e => !(e.1 ∈ out : Bool))) v) :
    ∃ u, u < n ∧ u ∉ out ∧ v ∈ lookupD m u := by
  obtain ⟨e, he, hv⟩ := exists_pos_entry hpos
  have hem : e ∈ m := List.mem_of_mem_filter he
  have hf := List.of_mem_filter he
  have hout : e.1 ∉ out := by simpa using hf
  refine ⟨e.1, hkb e hem, hout, ?_⟩
  rw [lookupD_eq_of_mem_nodup hknd hem]
  exact hv

/-- The five facts established for a terminated run (empty queue). -/
theorem kahn_terminal {m : List (Nat × List Nat)} {n : Nat}
    (hknd : (m.map Prod.fst).Nodup) (hkb : ∀ e ∈ m, e.1 < n)
    (ind : Nat → Int) (out : List Nat)
    (hnd : out.Nodup)
    (hc : ∀ v, ind v = totalCount (m.filter (fun e => !(e.1 ∈ out : Bool))) v)
    (hnz : ∀ v, v < n → v ∉ out → 1 ≤ ind v)
    (hmem : ∀ x ∈ out, x < n) :
    (∃ tail, out = out ++ tail) ∧ out.Nodup ∧ (∀ x ∈ out, x < n) ∧
      (∀ v ∈ out, v ∉ out → ∀ u, v ∈ lookupD m u →
        u ∈ out ∧ Precedes out u v) ∧
      (∀ v, v < n → v ∉ out → ∃ u, u < n ∧ u ∉ out ∧ v ∈ lookupD m u) := by
  refine ⟨⟨[], by simp⟩, hnd, hmem, ?_, ?_⟩
  · intro v hv hnv
    exact absurd hv hnv
  · intro v hvn hvo
    have h1 := hnz v hvn hvo
    rw [hc] at h1
    exact stuck_has_source hknd hkb h1

/-- Master correctness lemma for `kahnLoop`: with enough fuel, the produced
order extends `out`, has no duplicates, stays below `n`, every edge whose
endpoints both occur is oriented forward in the order, and every node left
out has an edge from another node left out. -/
theorem kahn_master (m : List (Nat × List Nat)) (n : Nat)
    (hknd : (m.map Prod.fst).Nodup)
    (hkb : ∀ e ∈ m, e.1 < n)
    (htg : ∀ e ∈ m, ∀ v ∈ e.2, v < n) :
    ∀ (fuel : Nat) (q : List Nat) (ind : Nat → Int) (out : List Nat),
      phi m q out ≤ fuel →
      (out ++ q).Nodup →
      (∀ x ∈ out ++ q, ind x ≤ 0) →
      (∀ v, ind v = totalCount (m.filter (fun e => !(e.1 ∈ out : Bool))) v) →
      (∀ v, v < n → v ∉ out ++ q → 1 ≤ ind v) →
      (∀ x ∈ out ++ q, x < n) →
      (∃ tail, kahnLoop (lookupD m) fuel q ind out = out ++ tail) ∧
      (kahnLoop (lookupD m) fuel q ind out).Nodup ∧
      (∀ x ∈ kahnLoop (lookupD m) fuel q ind out, x < n) ∧
      (∀ v ∈ kahnLoop (lookupD m) fuel q ind out, v ∉ out →
        ∀ u, v ∈ lookupD m u →
          u ∈ kahnLoop (lookupD m) fuel q ind out ∧
            Precedes (kahnLoop (lookupD m) fuel q ind out) u v) ∧
      (∀ v, v < n → v ∉ kahnLoop (lookupD m) fuel q ind out →
        ∃ u, u < n ∧ u ∉ kahnLoop (lookupD m) fuel q ind out ∧ v ∈ lookupD m u) := by
  intro fuel
  induction fuel with
  | zero =>
    intro q ind out hfuel hnd hle hc hnz hmem
    have hq : q = [] := by
      have hlen : q.length = 0 := by
        unfold phi at hfuel
        omega
      exact List.length_eq_zero.1 hlen
    subst hq
    show _ ∧ _
    rw [show kahnLoop (lookupD m) 0 [] ind out = out from rfl]
    exact kahn_terminal hknd hkb ind out (by simpa using hnd) hc
      (fun v h1 h2 => hnz v h1 (by simpa using h2)) (fun x hx => hmem x (by simpa using hx))
  | succ fuel ih =>
    intro q ind out hfuel hnd hle hc hnz hmem
    cases q with
    | nil =>
      rw [show kahnLoop (lookupD m) (fuel + 1) [] ind out = out from rfl]
      exact kahn_terminal hknd hkb ind out (by simpa using hnd) hc
        (fun v h1 h2 => hnz v h1 (by simpa using h2)) (fun x hx => hmem x (by simpa using hx))
    | cons u rest =>
      have hmid := List.nodup_cons.1 (List.nodup_middle.1 hnd)
      have hu_notin : u ∉ out ++ rest := hmid.1
      have hnd_or : (out ++ rest).Nodup := hmid.2
      have hu_out : u ∉ out := fun h => hu_notin (List.mem_append_left _ h)
      have hu_rest : u ∉ rest := fun h => hu_notin (List.mem_append_right _ h)
      have hnd_rest : rest.Nodup := hnd_or.of_append_right
      have hle_rest : ∀ x ∈ rest, ind x ≤ 0 := fun x hx =>
        hle x (List.mem_append_right _ (List.mem_cons_of_mem _ hx))
      obtain ⟨K1, K2, K3, K4, K5, K6, K7⟩ :=
        kfold_spec (lookupD m u) ind rest hnd_rest hle_rest
      set es := lookupD m u with hes
      set fold := es.foldl kahnVisit (ind, rest) with hfold
      have hstep : kahnLoop (lookupD m) (fuel + 1) (u :: rest) ind out =
          kahnLoop (lookupD m) fuel fold.2 fold.1 (out ++ [u]) := rfl
      -- targets of u are below n
      have hes_lt : ∀ v ∈ es, v < n := by
        intro v hv
        obtain ⟨l, hl, hvl⟩ := mem_entry_of_mem_lookupD (hes ▸ hv)
        exact htg _ hl _ hvl
      -- the length form of removing u from the remaining adjacency mass
      have hlen_split :
          ((m.filter (fun e => !(e.1 ∈ out : Bool))).map (fun e => e.2.length)).sum =
            es.length +
              ((m.filter (fun e => !(e.1 ∈ out : Bool) && !(e.1 = u : Bool))).map
                (fun e => e.2.length)).sum := by
        have := filter_erase_sum (M := Nat) (fun e => e.2.length) m out u hknd hu_out rfl
        simpa [hes] using this
      have hfuel2 : phi m fold.2 (out ++ [u]) ≤ fuel := by
        have hq2 : fold.2.length ≤ rest.length + es.length := K7
        have hphi_old : phi m (u :: rest) out ≤ fuel + 1 := hfuel
        unfold phi at hphi_old ⊢
        rw [filter_out_append]
        rw [hlen_split] at hphi_old
        simp only [List.length_cons] at hphi_old
        omega
      have hmem2 : ∀ x ∈ (out ++ [u]) ++ fold.2, x < n := by
        intro x hx
        rcases List.mem_append.1 hx with hx | hx
        · rcases List.mem_append.1 hx with hx | hx
          · exact hmem x (List.mem_append_left _ hx)
          · rw [List.mem_singleton] at hx
            subst hx
            exact hmem x (List.mem_append_right _ (List.mem_cons_self _ _))
        · rcases K5 x hx with hx1 | hx1
          · exact hmem x (List.mem_append_right _ (List.mem_cons_of_mem _ hx1))
          · exact hes_lt x hx1.1
      have hnd2 : ((out ++ [u]) ++ fold.2).Nodup := by
        rw [List.nodup_append]
        refine ⟨?_, K3, ?_⟩
        · have hsub : (out ++ [u]).Sublist (out ++ u :: rest) :=
            List.Sublist.append_left
              ((List.nil_sublist rest).cons₂ u) out
          exact hnd.sublist hsub
        · intro x hx hx2
          rcases K5 x hx2 with hx1 | hx1
          · rcases List.mem_append.1 hx with hx | hx
            · exact (List.disjoint_of_nodup_append hnd_or) hx hx1
            · rw [List.mem_singleton] at hx
              subst hx
              exact hu_rest hx1
          · have : ind x ≤ 0 := by
              rcases List.mem_append.1 hx with hx | hx
              · exact hle x (List.mem_append_left _ hx)
              · rw [List.mem_singleton] at hx
                subst hx
                exact hle x (List.mem_append_right _ (List.mem_cons_self _ _))
            omega
      have hle2 : ∀ x ∈ (out ++ [u]) ++ fold.2, fold.1 x ≤ 0 := by
        intro x hx
        rcases List.mem_append.1 hx with hx | hx
        · have h0 : ind x ≤ 0 := by
            rcases List.mem_append.1 hx with hx | hx
            · exact hle x (List.mem_append_left _ hx)
            · rw [List.mem_singleton] at hx
              subst hx
              exact hle x (List.mem_append_right _ (List.mem_cons_self _ _))
          rw [K1]
          have : (0 : Int) ≤ (es.count x : Int) := Int.ofNat_nonneg _
          omega
        · exact K4 x hx
      have hc2 : ∀ v, fold.1 v =
          totalCount (m.filter (fun e => !(e.1 ∈ out ++ [u] : Bool))) v := by
        intro v
        rw [K1, hc v, filter_out_append]
        have := filter_erase_sum (M := Int) (fun e => (e.2.count v : Int)) m out u hknd
          hu_out (by simp)
        unfold totalCount
        rw [this]
        simp [hes]
      have hnz2 : ∀ v, v < n → v ∉ (out ++ [u]) ++ fold.2 → 1 ≤ fold.1 v := by
        intro v hvn hv
        have hv_out : v ∉ out := fun h =>
          hv (List.mem_append_left _ (List.mem_append_left _ h))
        have hv_u : v ≠ u := fun h =>
          hv (List.mem_append_left _ (List.mem_append_right _ (by simp [h])))
        have hv_fold : v ∉ fold.2 := fun h => hv (List.mem_append_right _ h)
        have hv_rest : v ∉ rest := fun h => hv_fold (K2 v h)
        have hv_old : v ∉ out ++ u :: rest := by
          intro h
          rcases List.mem_append.1 h with h | h
          · exact hv_out h
          · rcases List.mem_cons.1 h with h | h
            · exact hv_u h
            · exact hv_rest h
        have h1 : 1 ≤ ind v := hnz v hvn hv_old
        by_contra hcon
        push_neg at hcon
        rw [K1] at hcon
        by_cases hves : v ∈ es
        · exact hv_fold (K6 v hves h1 (by omega))
        · rw [List.count_eq_zero.2 hves] at hcon
          omega
      rw [hstep]
      obtain ⟨⟨tail, htail⟩, R2, R3, R4, R5⟩ :=
        ih fold.2 fold.1 (out ++ [u]) hfuel2 hnd2 hle2 hc2 hnz2 hmem2
      refine ⟨⟨u :: tail, by rw [htail, List.append_assoc]; rfl⟩, R2, R3, ?_, R5⟩
      intro v hv hv_out u2 hvu2
      by_cases hvu : v = u
      · subst hvu
        have hind : ind v ≤ 0 :=
          hle v (List.mem_append_right _ (List.mem_cons_self _ _))
        rw [hc v] at hind
        have hu2 : u2 ∈ out := sources_dequeued hind hvu2
        constructor
        · rw [htail]
          exact List.mem_append_left _ (List.mem_append_left _ hu2)
        · refine ⟨out, v :: tail, ?_, hu2, List.mem_cons_self _ _⟩
          rw [htail, List.append_assoc]
          rfl
      · have hv2 : v ∉ out ++ [u] := by
          intro h
          rcases List.mem_append.1 h with h | h
          · exact hv_out h
          · rw [List.mem_singleton] at h
            exact hvu h
        exact R4 v hv hv2 u2 hvu2

theorem precedes_irrefl {l : List Nat} (hnd : l.Nodup) (a : Nat) :
    ¬ Precedes l a a := by
  rintro ⟨l1, l2, rfl, h1, h2⟩
  exact (List.disjoint_of_nodup_append hnd) h1 h2

theorem precedes_trans {l : List Nat} (hnd : l.Nodup) {a b c : Nat}
    (h1 : Precedes l a b) (h2 : Precedes l b c) : Precedes l a c := by
  obtain ⟨l1, l2, heq1, ha, hb⟩ := h1
  obtain ⟨m1, m2, heq2, hb2, hc⟩ := h2
  have heq : l1 ++ l2 = m1 ++ m2 := by rw [← heq1, ← heq2]
  rcases List.append_eq_append_iff.1 heq with ⟨a', hm1, _⟩ | ⟨c', hl1, _⟩
  · exact ⟨m1, m2, heq2, hm1 ▸ List.mem_append_left _ ha, hc⟩
  · subst hl1
    have hb_l1 : b ∈ m1 ++ c' := List.mem_append_left _ hb2
    have : ((m1 ++ c') ++ l2).Nodup := heq1 ▸ hnd
    exact absurd hb (fun hb' => (List.disjoint_of_nodup_append this) hb_l1 hb')

/-- `topoSort` at its initial state: the order produced is duplicate-free,
contains only node indices, orients every edge between ordered nodes
forward, and leaves a node out only if some other left-out node points to
it. -/
theorem topoSort_spec (g : CausalGraph) (hwf : Wf g) :
    (topoSort g).Nodup ∧
    (∀ x ∈ topoSort g, x < g.events.length) ∧
    (∀ u v, v ∈ edgeFun g u → v ∈ topoSort g →
      u ∈ topoSort g ∧ Precedes (topoSort g) u v) ∧
    (∀ v, v < g.events.length → v ∉ topoSort g →
      ∃ u, u < g.events.length ∧ u ∉ topoSort g ∧ v ∈ edgeFun g u) := by
  obtain ⟨hknd, hent⟩ := hwf
  set n := g.events.length with hn
  set m := g.edges with hm
  set ind := indegInit g.edges with hind
  set q0 := (List.range n).filter (fun i => indegInit g.edges i == 0) with hq0
  have hkb : ∀ e ∈ m, e.1 < n := fun e he => (hent e he).1
  have htg : ∀ e ∈ m, ∀ v ∈ e.2, v < n := fun e he => (hent e he).2
  have htopo : topoSort g = kahnLoop (lookupD m) (n + totalTargets m) q0 ind [] := rfl
  have hfuel : phi m q0 [] ≤ n + totalTargets m := by
    unfold phi
    have h1 : q0.length ≤ n := by
      calc q0.length ≤ (List.range n).length := List.length_filter_le _ _
        _ = n := List.length_range n
    have h2 : m.filter (fun e => !(e.1 ∈ ([] : List Nat) : Bool)) = m := by
      simp
    rw [h2]
    unfold totalTargets
    omega
  have hnd0 : (([] : List Nat) ++ q0).Nodup := by
    simp [hq0]
    exact (List.nodup_range n).filter _
  have hle0 : ∀ x ∈ ([] : List Nat) ++ q0, ind x ≤ 0 := by
    intro x hx
    simp only [List.nil_append, hq0, List.mem_filter] at hx
    have h2 : indegInit g.edges x = 0 := by simpa using hx.2
    simp [hind, h2]
  have hc0 : ∀ v, ind v =
      totalCount (m.filter (fun e => !(e.1 ∈ ([] : List Nat) : Bool))) v := by
    intro v
    have h2 : m.filter (fun e => !(e.1 ∈ ([] : List Nat) : Bool)) = m := by simp
    rw [h2, hind, indegInit_eq]
  have hnz0 : ∀ v, v < n → v ∉ ([] : List Nat) ++ q0 → 1 ≤ ind v := by
    intro v hv hvq
    simp only [List.nil_append, hq0, List.mem_filter, List.mem_range] at hvq
    push_neg at hvq
    have hne := hvq hv
    have hne2 : indegInit g.edges v ≠ 0 := by
      intro h0
      exact hne (by simp [h0])
    have hge : 0 ≤ indegInit g.edges v := by
      rw [indegInit_eq]
      exact totalCount_nonneg _ _
    rw [hind]
    omega
  have hmem0 : ∀ x ∈ ([] : List Nat) ++ q0, x < n := by
    intro x hx
    simp only [List.nil_append, hq0, List.mem_filter, List.mem_range] at hx
    exact hx.1
  obtain ⟨-, R2, R3, R4, R5⟩ := kahn_master m n hknd hkb htg
    (n + totalTargets m) q0 ind [] hfuel hnd0 hle0 hc0 hnz0 hmem0
  rw [htopo]
  refine ⟨R2, R3, ?_, R5⟩
  intro u v hv hvL
  exact R4 v hvL (List.not_mem_nil v) u hv

/-- With an acyclic graph every node index appears in the order. -/
theorem topoSort_complete (g : CausalGraph) (hwf : Wf g) (hac : Acyclic g) :
    ∀ v < g.events.length, v ∈ topoSort g := by
  intro v0 hv0n
  by_contra hv0
  obtain ⟨-, -, -, R5⟩ := topoSort_spec g hwf
  set n := g.events.length with hn
  have hstep : ∀ v : {x // x < n ∧ x ∉ topoSort g},
      ∃ u : {x // x < n ∧ x ∉ topoSort g}, v.1 ∈ edgeFun g u.1 := by
    rintro ⟨v, h1, h2⟩
    obtain ⟨u, hu1, hu2, hu3⟩ := R5 v h1 h2
    exact ⟨⟨u, hu1, hu2⟩, hu3⟩
  choose F hF using hstep
  set seq : Nat → {x // x < n ∧ x ∉ topoSort g} :=
    fun k => F^[k] ⟨v0, hv0n, hv0⟩ with hseq
  have hchain : ∀ d a, ReachS (edgeFun g) (seq (a + d)).1 (seq a).1 := by
    intro d
    induction d with
    | zero => intro a; exact Relation.ReflTransGen.refl
    | succ d ihd =>
      intro a
      have hs : seq (a + d + 1) = F (seq (a + d)) := by
        rw [hseq]
        simp [Function.iterate_succ_apply']
      have hedge : (seq (a + d)).1 ∈ edgeFun g (seq (a + d + 1)).1 := by
        rw [hs]
        exact hF (seq (a + d))
      have : ReachS (edgeFun g) (seq (a + d + 1)).1 (seq (a + d)).1 :=
        Relation.ReflTransGen.single hedge
      exact Relation.ReflTransGen.trans (show ReachS (edgeFun g) (seq (a + (d+1))).1 (seq (a+d)).1 from
        (by rw [show a + (d+1) = a + d + 1 from rfl]; exact this)) (ihd a)
  have hmap : ∀ k ∈ Finset.range (n + 1), (seq k).1 ∈ Finset.range n := by
    intro k _
    exact Finset.mem_range.2 (seq k).2.1
  obtain ⟨i, hi, j, hj, hij, hfij⟩ :=
    Finset.exists_ne_map_eq_of_card_lt_of_maps_to
      (by simp) hmap
  rcases Nat.lt_or_ge i j with hlt | hge
  · obtain ⟨d, rfl⟩ : ∃ d, j = i + (d + 1) := ⟨j - i - 1, by omega⟩
    have hs : seq (i + d + 1) = F (seq (i + d)) := by
      rw [hseq]
      simp [Function.iterate_succ_apply']
    have hedge : (seq (i + d)).1 ∈ edgeFun g (seq (i + d + 1)).1 := by
      rw [hs]
      exact hF (seq (i + d))
    have hreach : ReachP (edgeFun g) (seq (i + (d + 1))).1 (seq i).1 :=
      Relation.TransGen.head' (show eStep (edgeFun g) (seq (i + (d+1))).1 (seq (i+d)).1 from
        (by rw [show i + (d+1) = i + d + 1 from rfl]; exact hedge)) (hchain d i)
    rw [← hfij] at hreach
    exact hac _ hreach
  · have hlt : j < i := by omega
    obtain ⟨d, rfl⟩ : ∃ d, i = j + (d + 1) := ⟨i - j - 1, by omega⟩
    have hs : seq (j + d + 1) = F (seq (j + d)) := by
      rw [hseq]
      simp [Function.iterate_succ_apply']
    have hedge : (seq (j + d)).1 ∈ edgeFun g (seq (j + d + 1)).1 := by
      rw [hs]
      exact hF (seq (j + d))
    have hreach : ReachP (edgeFun g) (seq (j + (d + 1))).1 (seq j).1 :=
      Relation.TransGen.head' (show eStep (edgeFun g) (seq (j + (d+1))).1 (seq (j+d)).1 from
        (by rw [show j + (d+1) = j + d + 1 from rfl]; exact hedge)) (hchain d j)
    rw [hfij] at hreach
    exact hac _ hreach

theorem topoSort_length_of_acyclic (g : CausalGraph) (hwf : Wf g)
    (hac : Acyclic g) : (topoSort g).length = g.events.length := by
  obtain ⟨hnd, hbd, -, -⟩ := topoSort_spec g hwf
  have hcomp := topoSort_complete g hwf hac
  have hfin : (topoSort g).toFinset = Finset.range g.events.length := by
    ext x
    simp only [List.mem_toFinset, Finset.mem_range]
    exact ⟨fun h => hbd x h, fun h => hcomp x h⟩
  calc (topoSort g).length = (topoSort g).toFinset.card :=
        (List.toFinset_card_of_nodup hnd).symm
    _ = (Finset.range g.events.length).card := by rw [hfin]
    _ = g.events.length := Finset.card_range _

/-- Every node of the graph is the source only of edges it records: the
source of any present edge is a key of the edges map. -/
theorem source_lt_of_wf {g : CausalGraph} (hwf : Wf g) {a b : Nat}
    (h : b ∈ edgeFun g a) : a < g.events.length ∧ b < g.events.length := by
  obtain ⟨l, hl, hbl⟩ := mem_entry_of_mem_lookupD h
  exact ⟨(hwf.2 _ hl).1, (hwf.2 _ hl).2 b hbl⟩

/-- Conversely, a complete Kahn order certifies acyclicity. -/
theorem acyclic_of_topo_complete (g : CausalGraph) (hwf : Wf g)
    (hlen : (topoSort g).length = g.events.length) : Acyclic g := by
  obtain ⟨hnd, hbd, hval, -⟩ := topoSort_spec g hwf
  have hmemL : ∀ v, v < g.events.length → v ∈ topoSort g := by
    intro v hv
    have hsub : (topoSort g).toFinset ⊆ Finset.range g.events.length := by
      intro x hx
      rw [List.mem_toFinset] at hx
      exact Finset.mem_range.2 (hbd x hx)
    have hcard : (Finset.range g.events.length).card ≤ (topoSort g).toFinset.card := by
      rw [List.toFinset_card_of_nodup hnd, hlen, Finset.card_range]
    have := Finset.eq_of_subset_of_card_le hsub hcard
    rw [← List.mem_toFinset, this]
    exact Finset.mem_range.2 hv
  intro u hreach
  have hprec : ∀ a b, ReachP (edgeFun g) a b → Precedes (topoSort g) a b := by
    intro a b h
    induction h with
    | single hstep =>
      have hb := (source_lt_of_wf hwf hstep).2
      exact (hval _ _ hstep (hmemL _ hb)).2
    | tail hab hstep ihab =>
      have hb := (source_lt_of_wf hwf hstep).2
      exact precedes_trans hnd ihab (hval _ _ hstep (hmemL _ hb)).2
  exact precedes_irrefl hnd u (hprec u u hreach)

/-! ### Transitive reduction: preservation of reachability -/

theorem scanEdges_spec (reach : Nat → List Nat) :
    ∀ (es kept acc : List Nat), (∀ x ∈ kept, x ∈ acc) →
      (∃ δ, (scanEdges reach es kept acc).1 = kept ++ δ ∧ ∀ x ∈ δ, x ∈ es) ∧
      (∀ x ∈ acc, x ∈ (scanEdges reach es kept acc).2) ∧
      (∀ v ∈ es, v ∈ (scanEdges reach es kept acc).1 ∨
        v ∈ (scanEdges reach es kept acc).2) ∧
      (∀ x ∈ (scanEdges reach es kept acc).2,
        x ∈ acc ∨ ∃ k, k ∈ (scanEdges reach es kept acc).1 ∧ k ∉ kept ∧
          (x = k ∨ x ∈ reach k)) ∧
      (∀ k ∈ (scanEdges reach es kept acc).1, k ∉ kept →
        k ∈ (scanEdges reach es kept acc).2 ∧
          ∀ x ∈ reach k, x ∈ (scanEdges reach es kept acc).2) := by
  intro es
  induction es with
  | nil =>
    intro kept acc hka
    refine ⟨⟨[], by simp [scanEdges], by simp⟩, fun x hx => hx, by simp,
      fun x hx => Or.inl hx, ?_⟩
    intro k hk hknot
    exact absurd hk hknot
  | cons v es ih =>
    intro kept acc hka
    by_cases hv : v ∈ acc
    · rw [show scanEdges reach (v :: es) kept acc = scanEdges reach es kept acc from by
        simp [scanEdges, hv]]
      obtain ⟨⟨δ, hδ1, hδ2⟩, H2, H3, H4, H5⟩ := ih kept acc hka
      refine ⟨⟨δ, hδ1, fun x hx => List.mem_cons_of_mem _ (hδ2 x hx)⟩, H2, ?_, ?_, H5⟩
      · intro w hw
        rcases List.mem_cons.1 hw with hw | hw
        · subst hw
          exact Or.inr (H2 w hv)
        · exact H3 w hw
      · intro x hx
        rcases H4 x hx with h | ⟨k, hk1, hk2, hk3⟩
        · exact Or.inl h
        · exact Or.inr ⟨k, hk1, hk2, hk3⟩
    · rw [show scanEdges reach (v :: es) kept acc =
          scanEdges reach es (kept ++ [v]) (acc ++ v :: reach v) from by
        simp [scanEdges, hv]]
      have hka2 : ∀ x ∈ kept ++ [v], x ∈ acc ++ v :: reach v := by
        intro x hx
        rcases List.mem_append.1 hx with hx | hx
        · exact List.mem_append_left _ (hka x hx)
        · rw [List.mem_singleton] at hx
          subst hx
          exact List.mem_append_right _ (List.mem_cons_self _ _)
      obtain ⟨⟨δ, hδ1, hδ2⟩, H2, H3, H4, H5⟩ := ih (kept ++ [v]) (acc ++ v :: reach v) hka2
      have hvnk : v ∉ kept := fun h => hv (hka v h)
      refine ⟨⟨v :: δ, by rw [hδ1]; simp, ?_⟩, ?_, ?_, ?_, ?_⟩
      · intro x hx
        rcases List.mem_cons.1 hx with hx | hx
        · simp [hx]
        · exact List.mem_cons_of_mem _ (hδ2 x hx)
      · intro x hx
        exact H2 x (List.mem_append_left _ hx)
      · intro w hw
        rcases List.mem_cons.1 hw with hw | hw
        · subst hw
          refine Or.inl ?_
          rw [hδ1]
          exact List.mem_append_left _ (List.mem_append_right _ (List.mem_singleton_self _))
        · rcases H3 w hw with h | h
          · exact Or.inl h
          · exact Or.inr h
      · intro x hx
        rcases H4 x hx with h | ⟨k, hk1, hk2, hk3⟩
        · rcases List.mem_append.1 h with h | h
          · exact Or.inl h
          · refine Or.inr ⟨v, ?_, hvnk, ?_⟩
            · rw [hδ1]
              exact List.mem_append_left _ (List.mem_append_right _ (List.mem_singleton_self _))
            · rcases List.mem_cons.1 h with h | h
              · exact Or.inl h
              · exact Or.inr h
        · refine Or.inr ⟨k, hk1, fun hkk => hk2 (List.mem_append_left _ hkk), hk3⟩
      · intro k hk hknot
        by_cases hkv : k = v
        · subst hkv
          constructor
          · exact H2 k (List.mem_append_right _ (List.mem_cons_self _ _))
          · intro x hx
            exact H2 x (List.mem_append_right _ (List.mem_cons_of_mem _ hx))
        · have hknot2 : k ∉ kept ++ [v] := by
            intro h
            rcases List.mem_append.1 h with h | h
            · exact hknot h
            · rw [List.mem_singleton] at h
              exact hkv h
          exact H5 k hk hknot2

theorem viaP_mono {P P' : List Nat} {E E' : List (Nat × List Nat)}
    (hP : ∀ x ∈ P, x ∈ P')
    (hE : ∀ a ∈ P, lookupD E' a = lookupD E a) {a b : Nat}
    (h : ViaP P E a b) : ViaP P' E' a b := by
  induction h with
  | single hstep =>
    exact Relation.TransGen.single ⟨hP _ hstep.1, by rw [hE _ hstep.1]; exact hstep.2⟩
  | tail hab hstep ihab =>
    exact Relation.TransGen.tail ihab ⟨hP _ hstep.1, by rw [hE _ hstep.1]; exact hstep.2⟩

theorem viaP_reachP {P : List Nat} {E : List (Nat × List Nat)} {a b : Nat}
    (h : ViaP P E a b) : ReachP (lookupD E) a b := by
  induction h with
  | single hstep => exact Relation.TransGen.single hstep.2
  | tail hab hstep ihab => exact Relation.TransGen.tail ihab hstep.2

theorem reduceStep_inv {m0 : List (Nat × List Nat)} {P : List Nat} {st : RState}
    {u : Nat} (hu : u ∉ P) (hinv : ReduceInv m0 P st) :
    ReduceInv m0 (P ++ [u]) (reduceStep st u) := by
  obtain ⟨I1, I2, I3, I4, I5⟩ := hinv
  have hacc0 : st.reach u = [] := I1 u hu
  have hes : lookupD st.edges u = lookupD m0 u := I3 u hu
  obtain ⟨⟨δ, hδ1, hδ2⟩, S2, S3, S4, S5⟩ :=
    scanEdges_spec st.reach (lookupD st.edges u) [] (st.reach u)
      (by simp)
  set res := scanEdges st.reach (lookupD st.edges u) [] (st.reach u) with hres
  have hstep : reduceStep st u =
      { edges := mapSet st.edges u res.1, reach := updF st.reach u res.2 } := rfl
  have hkept : res.1 = δ := by rw [hδ1]; simp
  -- edges of nodes other than u are untouched
  have hother : ∀ a, a ≠ u → lookupD (mapSet st.edges u res.1) a = lookupD st.edges a := by
    intro a ha
    rw [lookupD_mapSet]
    exact if_neg (fun h => ha h.symm)
  have hself : lookupD (mapSet st.edges u res.1) u = res.1 := by
    rw [lookupD_mapSet]
    simp
  have hPmono : ∀ x ∈ P, x ∈ P ++ [u] := fun x hx => List.mem_append_left _ hx
  have hEunch : ∀ a ∈ P, lookupD (mapSet st.edges u res.1) a = lookupD st.edges a := by
    intro a ha
    exact hother a (fun h => hu (h ▸ ha))
  -- every element of the final accumulator is reachable from u in the new graph
  have hacc_via : ∀ x ∈ res.2, ViaP (P ++ [u]) (mapSet st.edges u res.1) u x := by
    intro x hx
    rcases S4 x hx with h | ⟨k, hk1, -, hk3⟩
    · rw [hacc0] at h
      simp at h
    · have hedge : EdgeVia (P ++ [u]) (mapSet st.edges u res.1) u k :=
        ⟨List.mem_append_right _ (List.mem_singleton_self _), by rw [hself]; exact hk1⟩
      rcases hk3 with rfl | hk3
      · exact Relation.TransGen.single hedge
      · by_cases hkP : k ∈ P
        · have hvia := I2 k hkP x hk3
          exact Relation.TransGen.head hedge (viaP_mono hPmono hEunch hvia)
        · rw [I1 k hkP] at hk3
          simp at hk3
  rw [hstep]
  refine ⟨?_, ?_, ?_, ?_, ?_⟩
  · intro w hw
    have hwu : w ≠ u := fun h => hw (h ▸ List.mem_append_right _ (List.mem_singleton_self _))
    have hwP : w ∉ P := fun h => hw (List.mem_append_left _ h)
    show updF st.reach u res.2 w = []
    unfold updF
    rw [if_neg hwu]
    exact I1 w hwP
  · intro w hw x hx
    rcases List.mem_append.1 hw with hwP | hwu
    · have hwu : w ≠ u := fun h => hu (h ▸ hwP)
      show ViaP (P ++ [u]) (mapSet st.edges u res.1) w x
      have hx2 : x ∈ st.reach w := by
        have hx3 : x ∈ updF st.reach u res.2 w := hx
        unfold updF at hx3
        rw [if_neg hwu] at hx3
        exact hx3
      exact viaP_mono hPmono hEunch (I2 w hwP x hx2)
    · rw [List.mem_singleton] at hwu
      subst hwu
      have hx2 : x ∈ res.2 := by
        have hx3 : x ∈ updF st.reach w res.2 w := hx
        unfold updF at hx3
        rw [if_pos rfl] at hx3
        exact hx3
      exact hacc_via x hx2
  · intro a ha
    have hau : a ≠ u := fun h => ha (h ▸ List.mem_append_right _ (List.mem_singleton_self _))
    have haP : a ∉ P := fun h => ha (List.mem_append_left _ h)
    show lookupD (mapSet st.edges u res.1) a = lookupD m0 a
    rw [hother a hau]
    exact I3 a haP
  · intro a ha b hb
    rcases List.mem_append.1 ha with haP | hau
    · rcases I4 a haP b hb with h | h
      · left
        rw [hEunch a haP]
        exact h
      · right
        exact viaP_mono hPmono hEunch h
    · rw [List.mem_singleton] at hau
      subst hau
      rw [← hes] at hb
      rcases S3 b hb with h | h
      · left
        rw [hself]
        exact h
      · right
        exact hacc_via b h
  · intro a b hb
    by_cases hau : a = u
    · subst hau
      rw [hself] at hb
      rw [hkept] at hb
      have := hδ2 b hb
      rw [hes] at this
      exact this
    · rw [hother a hau] at hb
      exact I5 a b hb

theorem reduceAux_inv (m0 : List (Nat × List Nat)) :
    ∀ (us : List Nat) (P : List Nat) (st : RState),
      (P ++ us).Nodup → ReduceInv m0 P st →
      ReduceInv m0 (P ++ us) (us.foldl reduceStep st) := by
  intro us
  induction us with
  | nil =>
    intro P st hnd hinv
    simpa using hinv
  | cons u us ih =>
    intro P st hnd hinv
    have hu : u ∉ P := by
      have := List.nodup_cons.1 (List.nodup_middle.1 hnd)
      intro h
      exact this.1 (List.mem_append_left _ h)
    have hnd2 : ((P ++ [u]) ++ us).Nodup := by
      rw [List.append_assoc]
      simpa using hnd
    have hstep := reduceStep_inv hu hinv
    have := ih (P ++ [u]) (reduceStep st u) hnd2 hstep
    rw [List.append_assoc] at this
    simpa using this

theorem reachS_mono {E E' : Nat → List Nat}
    (h : ∀ a b, b ∈ E' a → b ∈ E a) {a b : Nat}
    (hr : ReachS E' a b) : ReachS E a b := by
  induction hr with
  | refl => exact Relation.ReflTransGen.refl
  | tail hab hstep ihab => exact Relation.ReflTransGen.tail ihab (h _ _ hstep)

/-- Transitive reduction preserves reachability on any well-formed graph:
every dropped edge is replaced by a retained path, and no edge is added. -/
theorem reduce_reach_iff (g : CausalGraph) (hwf : Wf g) (a b : Nat) :
    ReachS (edgeFun g) a b ↔ ReachS (edgeFun (ReduceTransitive g)) a b := by
  obtain ⟨hndord, -, -, -⟩ := topoSort_spec g hwf
  have hndrev : (topoSort g).reverse.Nodup := by
    rw [List.nodup_reverse]
    exact hndord
  have hinv0 : ReduceInv g.edges [] { edges := g.edges, reach := fun _ => [] } := by
    refine ⟨fun w _ => rfl, by simp, fun a _ => rfl, by simp, fun a b hb => hb⟩
  obtain ⟨-, -, I3, I4, I5⟩ := reduceAux_inv g.edges (topoSort g).reverse []
    { edges := g.edges, reach := fun _ => [] } (by simpa using hndrev) hinv0
  set stF := (topoSort g).reverse.foldl reduceStep { edges := g.edges, reach := fun _ => [] }
    with hstF
  have hEF : edgeFun (ReduceTransitive g) = lookupD stF.edges := rfl
  have hE0 : edgeFun g = lookupD g.edges := rfl
  rw [hEF, hE0]
  have hseg : ∀ x y, y ∈ lookupD g.edges x → ReachS (lookupD stF.edges) x y := by
    intro x y hxy
    by_cases hxP : x ∈ ([] : List Nat) ++ (topoSort g).reverse
    · rcases I4 x hxP y hxy with h | h
      · exact Relation.ReflTransGen.single h
      · exact (viaP_reachP h).to_reflTransGen
    · rw [← I3 x hxP] at hxy
      exact Relation.ReflTransGen.single hxy
  constructor
  · intro hr
    induction hr with
    | refl => exact Relation.ReflTransGen.refl
    | tail hab hstep ihab =>
      exact Relation.ReflTransGen.trans ihab (hseg _ _ hstep)
  · intro hr
    exact reachS_mono (fun p q hq => I5 p q hq) hr

/-! ### Transitive reduction: exactness of the reach sets and idempotence -/

theorem mem_mapSet {m : List (Nat × List Nat)} {k : Nat} {v : List Nat}
    {e : Nat × List Nat} (h : e ∈ mapSet m k v) : e ∈ m ∨ e = (k, v) := by
  induction m with
  | nil =>
    simp [mapSet] at h
    exact Or.inr h
  | cons x rest ih =>
    obtain ⟨a, w⟩ := x
    simp only [mapSet] at h
    by_cases hak : a = k
    · rw [if_pos hak] at h
      rcases List.mem_cons.1 h with h | h
      · exact Or.inr h
      · exact Or.inl (List.mem_cons_of_mem _ h)
    · rw [if_neg hak] at h
      rcases List.mem_cons.1 h with h | h
      · exact Or.inl (h ▸ List.mem_cons_self _ _)
      · rcases ih h with h | h
        · exact Or.inl (List.mem_cons_of_mem _ h)
        · exact Or.inr h

theorem map_fst_mapSet_of_not_mem {m : List (Nat × List Nat)} {k : Nat}
    (v : List Nat) (h : k ∉ m.map Prod.fst) :
    (mapSet m k v).map Prod.fst = m.map Prod.fst ++ [k] := by
  induction m with
  | nil => simp [mapSet]
  | cons x rest ih =>
    obtain ⟨a, w⟩ := x
    simp only [List.map_cons, List.mem_cons] at h
    push_neg at h
    simp only [mapSet, if_neg (fun hh : a = k => h.1 hh.symm)]
    simp [ih h.2]

theorem mem_keys_mapSet {m : List (Nat × List Nat)} {k a : Nat} {v : List Nat}
    (h : a ∈ m.map Prod.fst) : a ∈ (mapSet m k v).map Prod.fst := by
  by_cases hk : k ∈ m.map Prod.fst
  · rw [map_fst_mapSet_of_mem m k v hk]
    exact h
  · rw [map_fst_mapSet_of_not_mem v hk]
    exact List.mem_append_left _ h

theorem mapSet_self {m : List (Nat × List Nat)} {k : Nat}
    (h : k ∈ m.map Prod.fst) : mapSet m k (lookupD m k) = m := by
  induction m with
  | nil => simp at h
  | cons x rest ih =>
    obtain ⟨a, w⟩ := x
    by_cases hak : a = k
    · subst hak
      have : lookupD ((a, w) :: rest) a = w := by simp [lookupD, lookupO]
      rw [this]
      simp [mapSet]
    · have hlk : lookupD ((a, w) :: rest) k = lookupD rest k := by
        simp [lookupD, lookupO, hak]
      rw [hlk]
      simp only [mapSet, if_neg hak]
      simp only [List.map_cons, List.mem_cons] at h
      rcases h with h | h
      · exact absurd h.symm hak
      · rw [ih h]

theorem key_of_lookupD_ne_nil {m : List (Nat × List Nat)} {u : Nat}
    (h : lookupD m u ≠ []) : u ∈ m.map Prod.fst := by
  by_contra hu
  have := lookupO_eq_none_iff m u |>.2 hu
  unfold lookupD at h
  rw [this] at h
  simp at h

/-- In the reverse-order processing split `ord.reverse = P ++ u :: rest`,
any node preceded by `u` in `ord` has already been processed. -/
theorem precedes_processed {ord : List Nat} (hnd : ord.Nodup) {P rest : List Nat}
    {u v : Nat} (hsplit : ord.reverse = P ++ u :: rest)
    (hprec : Precedes ord u v) : v ∈ P := by
  obtain ⟨l1, l2, heq, hu, hv⟩ := hprec
  have hrev : P ++ u :: rest = l2.reverse ++ l1.reverse := by
    rw [← hsplit, heq]
    simp
  have hul2 : u ∉ l2 := by
    intro h
    have : ((l1 : List Nat) ++ l2).Nodup := heq ▸ hnd
    exact (List.disjoint_of_nodup_append this) hu h
  rcases List.append_eq_append_iff.1 hrev with ⟨a', h1, h2⟩ | ⟨c', h1, h2⟩
  · cases a' with
    | nil =>
      have h1' : l2.reverse = P := by simpa using h1
      have hvr : v ∈ l2.reverse := List.mem_reverse.2 hv
      rw [h1'] at hvr
      exact hvr
    | cons x a'' =>
      have hxu : x = u := by
        have := congrArg (fun l => l.head?) h2
        simpa using this.symm
      subst hxu
      have : x ∈ l2.reverse := by
        rw [h1]
        exact List.mem_append_right _ (List.mem_cons_self _ _)
      rw [List.mem_reverse] at this
      exact absurd this hul2
  · rw [h1]
    exact List.mem_append_left _ (List.mem_reverse.2 hv)

/-- Conversely, every already-processed node is preceded by `u` in `ord`. -/
theorem mem_processed_precedes {ord : List Nat} {P rest : List Nat}
    {u w : Nat} (hsplit : ord.reverse = P ++ u :: rest) (hw : w ∈ P) :
    Precedes ord u w := by
  refine ⟨rest.reverse ++ [u], P.reverse, ?_, ?_, List.mem_reverse.2 hw⟩
  · have : ord = (P ++ u :: rest).reverse := by
      rw [← hsplit]
      simp
    rw [this]
    simp
  · exact List.mem_append_right _ (List.mem_singleton_self _)

theorem reachP_mono {E E' : Nat → List Nat}
    (h : ∀ a b, b ∈ E' a → b ∈ E a) {a b : Nat}
    (hr : ReachP E' a b) : ReachP E a b := by
  induction hr with
  | single hstep => exact Relation.TransGen.single (h _ _ hstep)
  | tail hab hstep ihab => exact Relation.TransGen.tail ihab (h _ _ hstep)

/-- Every edge of a well-formed acyclic graph is oriented forward in the
topological order, and so is every nonempty path. -/
theorem reachP_precedes (g : CausalGraph) (hwf : Wf g) (hac : Acyclic g)
    {a b : Nat} (h : ReachP (edgeFun g) a b) : Precedes (topoSort g) a b := by
  obtain ⟨hnd, -, hval, -⟩ := topoSort_spec g hwf
  induction h with
  | single hstep =>
    have hb := (source_lt_of_wf hwf hstep).2
    exact (hval _ _ hstep (topoSort_complete g hwf hac _ hb)).2
  | tail hab hstep ihab =>
    have hb := (source_lt_of_wf hwf hstep).2
    exact precedes_trans hnd ihab (hval _ _ hstep (topoSort_complete g hwf hac _ hb)).2

/-- Dropping a never-revisited node from the source set of a path: if `u` is
not reachable from `k`, then no path from `k` uses `u` as a source. -/
theorem viaP_drop {P : List Nat} {E : List (Nat × List Nat)} {u k x : Nat}
    (hnr : ¬ ReachS (lookupD E) k u) (h : ViaP (P ++ [u]) E k x) :
    ViaP P E k x := by
  induction h with
  | single hstep =>
    rcases List.mem_append.1 hstep.1 with hs | hs
    · exact Relation.TransGen.single ⟨hs, hstep.2⟩
    · rw [List.mem_singleton] at hs
      subst hs
      exact absurd Relation.ReflTransGen.refl hnr
  | tail hab hstep ihab =>
    rcases List.mem_append.1 hstep.1 with hs | hs
    · exact Relation.TransGen.tail ihab ⟨hs, hstep.2⟩
    · rw [List.mem_singleton] at hs
      subst hs
      exact absurd (viaP_reachP hab).to_reflTransGen hnr

/-- If the retained-edge scan starts from a closed accumulator, the kept
list stays pairwise irredundant: no kept target equals, or is reachable
from, an earlier kept target. -/
theorem scanEdges_pairwise (reach : Nat → List Nat) :
    ∀ (es kept acc : List Nat),
      (∀ k ∈ kept, k ∈ acc ∧ ∀ x ∈ reach k, x ∈ acc) →
      kept.Pairwise (fun a b => b ≠ a ∧ b ∉ reach a) →
      (scanEdges reach es kept acc).1.Pairwise (fun a b => b ≠ a ∧ b ∉ reach a) := by
  intro es
  induction es with
  | nil =>
    intro kept acc hcl hpw
    simpa [scanEdges] using hpw
  | cons v es ih =>
    intro kept acc hcl hpw
    by_cases hv : v ∈ acc
    · rw [show scanEdges reach (v :: es) kept acc = scanEdges reach es kept acc from by
        simp [scanEdges, hv]]
      exact ih kept acc hcl hpw
    · rw [show scanEdges reach (v :: es) kept acc =
          scanEdges reach es (kept ++ [v]) (acc ++ v :: reach v) from by
        simp [scanEdges, hv]]
      refine ih (kept ++ [v]) (acc ++ v :: reach v) ?_ ?_
      · intro k hk
        rcases List.mem_append.1 hk with hk | hk
        · obtain ⟨h1, h2⟩ := hcl k hk
          exact ⟨List.mem_append_left _ h1, fun x hx => List.mem_append_left _ (h2 x hx)⟩
        · rw [List.mem_singleton] at hk
          subst hk
          refine ⟨List.mem_append_right _ (List.mem_cons_self _ _), ?_⟩
          intro x hx
          exact List.mem_append_right _ (List.mem_cons_of_mem _ hx)
      · rw [List.pairwise_append]
        refine ⟨hpw, List.pairwise_singleton _ _, ?_⟩
        intro a ha b hb
        rw [List.mem_singleton] at hb
        subst hb
        obtain ⟨h1, h2⟩ := hcl a ha
        exact ⟨fun hh => hv (hh ▸ h1), fun hh => hv (h2 b hh)⟩

/-- If no edge target is redundant, the scan keeps everything. -/
theorem scanEdges_keep_all (reach : Nat → List Nat) :
    ∀ (es kept acc : List Nat),
      (∀ v ∈ es, v ∉ acc) →
      es.Pairwise (fun a b => b ≠ a ∧ b ∉ reach a) →
      (scanEdges reach es kept acc).1 = kept ++ es := by
  intro es
  induction es with
  | nil =>
    intro kept acc h1 h2
    simp [scanEdges]
  | cons v es ih =>
    intro kept acc h1 h2
    have hv : v ∉ acc := h1 v (List.mem_cons_self _ _)
    rw [show scanEdges reach (v :: es) kept acc =
        scanEdges reach es (kept ++ [v]) (acc ++ v :: reach v) from by
      simp [scanEdges, hv]]
    have hhead := (List.pairwise_cons.1 h2).1
    have h1' : ∀ w ∈ es, w ∉ acc ++ v :: reach v := by
      intro w hw hmem
      rcases List.mem_append.1 hmem with h | h
      · exact h1 w (List.mem_cons_of_mem _ hw) h
      · rcases List.mem_cons.1 h with h | h
        · exact (hhead w hw).1 h
        · exact (hhead w hw).2 h
    rw [ih (kept ++ [v]) (acc ++ v :: reach v) h1' (List.pairwise_cons.1 h2).2]
    simp

/-- One reduction step, with the exactness and irredundancy invariants: after
processing `u`, (1) the plain invariant still holds, (2) every processed
node's `reachable` set contains everything reachable through processed
sources, and (3) every processed node's retained adjacency list is pairwise
irredundant with respect to the `reachable` sets. -/
theorem reduceStep_exact {g : CausalGraph} (hwf : Wf g) (hac : Acyclic g)
    {P rest : List Nat} {st : RState} {u : Nat}
    (hsplit : (topoSort g).reverse = P ++ u :: rest)
    (hinv : ReduceInv g.edges P st)
    (hX : ∀ w ∈ P, ∀ x, ViaP P st.edges w x → x ∈ st.reach w)
    (hF : ∀ w ∈ P, (lookupD st.edges w).Pairwise
      (fun a b => b ≠ a ∧ b ∉ st.reach a)) :
    ReduceInv g.edges (P ++ [u]) (reduceStep st u) ∧
    (∀ w ∈ P ++ [u], ∀ x, ViaP (P ++ [u]) (reduceStep st u).edges w x →
      x ∈ (reduceStep st u).reach w) ∧
    (∀ w ∈ P ++ [u], (lookupD (reduceStep st u).edges w).Pairwise
      (fun a b => b ≠ a ∧ b ∉ (reduceStep st u).reach a)) := by
  have hnd : (topoSort g).Nodup := (topoSort_spec g hwf).1
  have hndrev : ((topoSort g).reverse).Nodup := List.nodup_reverse.2 hnd
  have hu : u ∉ P := by
    rw [hsplit] at hndrev
    have := List.nodup_cons.1 (List.nodup_middle.1 hndrev)
    intro h
    exact this.1 (List.mem_append_left _ h)
  have hinvStep := reduceStep_inv hu hinv
  have I5s := hinvStep.2.2.2.2
  obtain ⟨I1, I2, I3, I4, I5⟩ := hinv
  have hacc0 : st.reach u = [] := I1 u hu
  have hes : lookupD st.edges u = lookupD g.edges u := I3 u hu
  obtain ⟨⟨δ, hδ1, hδ2⟩, S2, S3, S4, S5⟩ :=
    scanEdges_spec st.reach (lookupD st.edges u) [] (st.reach u)
      (by simp)
  set res := scanEdges st.reach (lookupD st.edges u) [] (st.reach u) with hres
  have hkept : res.1 = δ := by rw [hδ1]; simp
  have hother : ∀ a, a ≠ u → lookupD (mapSet st.edges u res.1) a = lookupD st.edges a := by
    intro a ha
    rw [lookupD_mapSet]
    exact if_neg (fun h => ha h.symm)
  have hself : lookupD (mapSet st.edges u res.1) u = res.1 := by
    rw [lookupD_mapSet]
    simp
  have hEunch : ∀ a ∈ P, lookupD (mapSet st.edges u res.1) a = lookupD st.edges a := by
    intro a ha
    exact hother a (fun h => hu (h ▸ ha))
  have hback : ∀ a ∈ P, lookupD st.edges a = lookupD (mapSet st.edges u res.1) a :=
    fun a ha => (hEunch a ha).symm
  -- every retained target of u was already processed
  have hsucc : ∀ v ∈ lookupD st.edges u, v ∈ P := by
    intro v hv
    rw [hes] at hv
    exact precedes_processed hnd hsplit
      (reachP_precedes g hwf hac (Relation.TransGen.single hv))
  have hsub' : ∀ a b, b ∈ lookupD (mapSet st.edges u res.1) a → b ∈ lookupD g.edges a := by
    intro a b hb
    exact I5s a b hb
  -- u is unreachable in the new graph from any of its direct successors
  have hnru : ∀ k ∈ lookupD g.edges u, ¬ ReachS (lookupD (mapSet st.edges u res.1)) k u := by
    intro k hk hRS
    have hg2 : ReachS (lookupD g.edges) k u := reachS_mono hsub' hRS
    exact hac u (Relation.TransGen.head' hk hg2)
  -- u is unreachable in the new graph from any processed node
  have hnrw : ∀ w ∈ P, ¬ ReachS (lookupD (mapSet st.edges u res.1)) w u := by
    intro w hw hRS
    have hg2 : ReachS (lookupD g.edges) w u := reachS_mono hsub' hRS
    have hwu : w ≠ u := fun h => hu (h ▸ hw)
    rcases Relation.ReflTransGen.cases_head hg2 with heq | ⟨c, hc, hcu⟩
    · exact hwu heq
    · have htg : ReachP (edgeFun g) w u := Relation.TransGen.head' hc hcu
      have h1 := reachP_precedes g hwf hac htg
      have h2 := mem_processed_precedes hsplit hw
      exact precedes_irrefl hnd w (precedes_trans hnd h1 h2)
  refine ⟨hinvStep, ?_, ?_⟩
  · -- exactness of the reach sets
    intro w hw x hvia
    have hvia2 : ViaP (P ++ [u]) (mapSet st.edges u res.1) w x := hvia
    rcases List.mem_append.1 hw with hwP | hwu
    · have hwu : w ≠ u := fun h => hu (h ▸ hwP)
      have hvia3 : ViaP P (mapSet st.edges u res.1) w x :=
        viaP_drop (hnrw w hwP) hvia2
      have hvia4 : ViaP P st.edges w x :=
        viaP_mono (fun y hy => hy) hback hvia3
      show x ∈ updF st.reach u res.2 w
      unfold updF
      rw [if_neg hwu]
      exact hX w hwP x hvia4
    · rw [List.mem_singleton] at hwu
      subst hwu
      show x ∈ updF st.reach w res.2 w
      unfold updF
      rw [if_pos rfl]
      obtain ⟨k, hk, hkx⟩ := Relation.TransGen.head'_iff.1 hvia2
      have hk1 : k ∈ res.1 := by rw [← hself]; exact hk.2
      have hkst : k ∈ lookupD st.edges w := hδ2 k (hkept ▸ hk1)
      have hkg : k ∈ lookupD g.edges w := by rw [← hes]; exact hkst
      have hkP : k ∈ P := hsucc k hkst
      rcases Relation.reflTransGen_iff_eq_or_transGen.1 hkx with heq | htg
      · subst heq
        exact (S5 x hk1 (List.not_mem_nil x)).1
      · have hkx2 : ViaP P (mapSet st.edges w res.1) k x :=
          viaP_drop (hnru k hkg) htg
        have hkx3 : ViaP P st.edges k x :=
          viaP_mono (fun y hy => hy) hback hkx2
        exact (S5 k hk1 (List.not_mem_nil k)).2 x (hX k hkP x hkx3)
  · -- pairwise irredundancy of the retained adjacency lists
    intro w hw
    rcases List.mem_append.1 hw with hwP | hwu
    · have hwne : w ≠ u := fun h => hu (h ▸ hwP)
      show (lookupD (mapSet st.edges u res.1) w).Pairwise
        (fun a b => b ≠ a ∧ b ∉ updF st.reach u res.2 a)
      rw [hEunch w hwP]
      refine (hF w hwP).imp_of_mem ?_
      intro a b ha _hb hR
      have hag : a ∈ lookupD g.edges w := I5 w a ha
      have hau : a ≠ u := by
        intro h
        subst h
        have hp1 := reachP_precedes g hwf hac (Relation.TransGen.single hag)
        have hp2 := mem_processed_precedes hsplit hwP
        exact precedes_irrefl hnd w (precedes_trans hnd hp1 hp2)
      refine ⟨hR.1, ?_⟩
      show b ∉ updF st.reach u res.2 a
      unfold updF
      rw [if_neg hau]
      exact hR.2
    · rw [List.mem_singleton] at hwu
      subst hwu
      show (lookupD (mapSet st.edges w res.1) w).Pairwise
        (fun a b => b ≠ a ∧ b ∉ updF st.reach w res.2 a)
      rw [hself]
      have hpw : res.1.Pairwise (fun a b => b ≠ a ∧ b ∉ st.reach a) :=
        scanEdges_pairwise st.reach (lookupD st.edges w) [] (st.reach w)
          (by simp) (by simp)
      refine hpw.imp_of_mem ?_
      intro a b ha _hb hR
      have hast : a ∈ lookupD st.edges w := hδ2 a (hkept ▸ ha)
      have haP : a ∈ P := hsucc a hast
      have hau : a ≠ w := fun h => hu (h ▸ haP)
      refine ⟨hR.1, ?_⟩
      show b ∉ updF st.reach w res.2 a
      unfold updF
      rw [if_neg hau]
      exact hR.2

/-- Folding the reduction step over the remaining reverse order keeps the
plain invariant, the exactness invariant and the irredundancy invariant. -/
theorem reduceAux_exact (g : CausalGraph) (hwf : Wf g) (hac : Acyclic g) :
    ∀ (us P : List Nat) (st : RState),
      (topoSort g).reverse = P ++ us →
      ReduceInv g.edges P st →
      (∀ w ∈ P, ∀ x, ViaP P st.edges w x → x ∈ st.reach w) →
      (∀ w ∈ P, (lookupD st.edges w).Pairwise (fun a b => b ≠ a ∧ b ∉ st.reach a)) →
      ReduceInv g.edges (P ++ us) (us.foldl reduceStep st) ∧
      (∀ w ∈ P ++ us, ∀ x, ViaP (P ++ us) (us.foldl reduceStep st).edges w x →
        x ∈ (us.foldl reduceStep st).reach w) ∧
      (∀ w ∈ P ++ us, (lookupD (us.foldl reduceStep st).edges w).Pairwise
        (fun a b => b ≠ a ∧ b ∉ (us.foldl reduceStep st).reach a)) := by
  intro us
  induction us with
  | nil =>
    intro P st _hsplit hinv hX hF
    rw [List.append_nil]
    exact ⟨hinv, hX, hF⟩
  | cons u rest ih =>
    intro P st hsplit hinv hX hF
    obtain ⟨hinv2, hX2, hF2⟩ := reduceStep_exact hwf hac hsplit hinv hX hF
    have hsplit2 : (topoSort g).reverse = (P ++ [u]) ++ rest := by
      rw [hsplit]
      simp
    have hPe : P ++ u :: rest = (P ++ [u]) ++ rest := by simp
    rw [hPe]
    exact ih (P ++ [u]) (reduceStep st u) hsplit2 hinv2 hX2 hF2

/-- The reduced graph only removes edges. -/
theorem reduce_subset (g : CausalGraph) (hwf : Wf g) :
    ∀ a b, b ∈ edgeFun (ReduceTransitive g) a → b ∈ edgeFun g a := by
  have hndord : (topoSort g).Nodup := (topoSort_spec g hwf).1
  have hinv0 : ReduceInv g.edges [] { edges := g.edges, reach := fun _ => [] } :=
    ⟨fun w _ => rfl, by simp, fun a _ => rfl, by simp, fun a b hb => hb⟩
  obtain ⟨-, -, -, -, I5⟩ := reduceAux_inv g.edges (topoSort g).reverse []
    { edges := g.edges, reach := fun _ => [] }
    (by simpa using List.nodup_reverse.2 hndord) hinv0
  exact fun a b hb => I5 a b hb

theorem reduceFold_wf (n : Nat) :
    ∀ (us : List Nat), (∀ u ∈ us, u < n) →
    ∀ (st : RState),
      (st.edges.map Prod.fst).Nodup →
      (∀ e ∈ st.edges, e.1 < n ∧ ∀ v ∈ e.2, v < n) →
      (((us.foldl reduceStep st).edges.map Prod.fst).Nodup ∧
        ∀ e ∈ (us.foldl reduceStep st).edges, e.1 < n ∧ ∀ v ∈ e.2, v < n) := by
  intro us
  induction us with
  | nil =>
    intro _ st hnd hb
    exact ⟨hnd, hb⟩
  | cons u rest ih =>
    intro hus st hnd hb
    obtain ⟨⟨δ, hδ1, hδ2⟩, -, -, -, -⟩ :=
      scanEdges_spec st.reach (lookupD st.edges u) [] (st.reach u) (by simp)
    set res := scanEdges st.reach (lookupD st.edges u) [] (st.reach u) with hres
    have hkept : res.1 = δ := by rw [hδ1]; simp
    have hsub : ∀ v ∈ res.1, v ∈ lookupD st.edges u := by
      intro v hv
      exact hδ2 v (hkept ▸ hv)
    have hedges : (reduceStep st u).edges = mapSet st.edges u res.1 := rfl
    refine ih (fun v hv => hus v (List.mem_cons_of_mem _ hv)) (reduceStep st u) ?_ ?_
    · rw [hedges]
      by_cases hk : u ∈ st.edges.map Prod.fst
      · rw [map_fst_mapSet_of_mem st.edges u res.1 hk]
        exact hnd
      · rw [map_fst_mapSet_of_not_mem res.1 hk]
        refine List.Nodup.append hnd (List.nodup_singleton u) ?_
        intro x hx hx2
        rw [List.mem_singleton] at hx2
        subst hx2
        exact hk hx
    · rw [hedges]
      intro e he
      rcases mem_mapSet he with he | he
      · exact hb e he
      · subst he
        refine ⟨hus u (List.mem_cons_self _ _), ?_⟩
        intro v hv
        obtain ⟨l, hl, hvl⟩ := mem_entry_of_mem_lookupD (hsub v hv)
        exact (hb (u, l) hl).2 v hvl

/-- Transitive reduction preserves well-formedness. -/
theorem reduce_wf (g : CausalGraph) (hwf : Wf g) : Wf (ReduceTransitive g) := by
  obtain ⟨hnd, hb⟩ := hwf
  have hbnd : ∀ u ∈ (topoSort g).reverse, u < g.events.length := by
    intro u hu
    exact (topoSort_spec g ⟨hnd, hb⟩).2.1 u (List.mem_reverse.1 hu)
  exact reduceFold_wf g.events.length (topoSort g).reverse hbnd
    { edges := g.edges, reach := fun _ => [] } hnd hb

theorem reduceFold_keys_mono :
    ∀ (us : List Nat) (st : RState) (a : Nat),
      a ∈ st.edges.map Prod.fst → a ∈ ((us.foldl reduceStep st).edges).map Prod.fst := by
  intro us
  induction us with
  | nil =>
    intro st a ha
    exact ha
  | cons u rest ih =>
    intro st a ha
    exact ih (reduceStep st u) a (mem_keys_mapSet ha)

/-- Transitive reduction preserves completeness of the key set. -/
theorem reduce_keysComplete (g : CausalGraph) (hkc : KeysComplete g) :
    KeysComplete (ReduceTransitive g) := by
  intro i hi
  exact reduceFold_keys_mono (topoSort g).reverse
    { edges := g.edges, reach := fun _ => [] } i (hkc i hi)

/-- Transitive reduction preserves acyclicity. -/
theorem reduce_acyclic (g : CausalGraph) (hwf : Wf g) (hac : Acyclic g) :
    Acyclic (ReduceTransitive g) := by
  intro u hu
  exact hac u (reachP_mono (reduce_subset g hwf) hu)

/-- In the reduced graph of a well-formed acyclic graph no retained target is
equal to, or reachable (in the reduced graph) from, an earlier retained
target of the same node: the output is pairwise irredundant. -/
theorem reduced_pairwise (g : CausalGraph) (hwf : Wf g) (hac : Acyclic g) :
    ∀ u, (lookupD (ReduceTransitive g).edges u).Pairwise
      (fun a b => b ≠ a ∧ ¬ ReachP (edgeFun (ReduceTransitive g)) a b) := by
  have hndord : (topoSort g).Nodup := (topoSort_spec g hwf).1
  have hinv0 : ReduceInv g.edges [] { edges := g.edges, reach := fun _ => [] } :=
    ⟨fun w _ => rfl, by simp, fun a _ => rfl, by simp, fun a b hb => hb⟩
  obtain ⟨-, hXF, hFF⟩ := reduceAux_exact g hwf hac (topoSort g).reverse []
    { edges := g.edges, reach := fun _ => [] } rfl hinv0 (by simp) (by simp)
  set stF := (topoSort g).reverse.foldl reduceStep
    { edges := g.edges, reach := fun _ => [] } with hstF
  have hwfR := reduce_wf g hwf
  have hEq : (ReduceTransitive g).edges = stF.edges := rfl
  -- every key of the final edges map lies in the processed set
  have hkeyP : ∀ x, x ∈ stF.edges.map Prod.fst → x ∈ ([] : List Nat) ++ (topoSort g).reverse := by
    intro x hx
    obtain ⟨e, he, hfst⟩ := List.mem_map.1 hx
    have hxn : x < g.events.length := by
      have := (hwfR.2 e (by rw [hEq]; exact he)).1
      rw [hfst] at this
      exact this
    rw [List.nil_append, List.mem_reverse]
    exact topoSort_complete g hwf hac x hxn
  have htrans : ∀ x y, ReachP (lookupD stF.edges) x y →
      ViaP (([] : List Nat) ++ (topoSort g).reverse) stF.edges x y := by
    intro x y h
    induction h with
    | single hstep =>
      refine Relation.TransGen.single ⟨?_, hstep⟩
      refine hkeyP _ (key_of_lookupD_ne_nil ?_)
      intro h0
      unfold eStep at hstep
      rw [h0] at hstep
      simp at hstep
    | tail hab hstep ihab =>
      refine Relation.TransGen.tail ihab ⟨?_, hstep⟩
      refine hkeyP _ (key_of_lookupD_ne_nil ?_)
      intro h0
      unfold eStep at hstep
      rw [h0] at hstep
      simp at hstep
  intro u
  by_cases hul : lookupD stF.edges u = []
  · show (lookupD stF.edges u).Pairwise _
    rw [hul]
    exact List.Pairwise.nil
  · have humem := hkeyP u (key_of_lookupD_ne_nil hul)
    show (lookupD stF.edges u).Pairwise
      (fun a b => b ≠ a ∧ ¬ ReachP (edgeFun (ReduceTransitive g)) a b)
    refine (hFF u humem).imp_of_mem ?_
    intro a b ha _hb hR
    refine ⟨hR.1, ?_⟩
    intro hreach
    have hreach2 : ReachP (lookupD stF.edges) a b := hreach
    have haP : a ∈ ([] : List Nat) ++ (topoSort g).reverse := by
      obtain ⟨l, hl, hal⟩ := mem_entry_of_mem_lookupD ha
      have := (hwfR.2 (u, l) (by rw [hEq]; exact hl)).2 a hal
      rw [List.nil_append, List.mem_reverse]
      exact topoSort_complete g hwf hac a this
    exact hR.2 (hXF a haP b (htrans a b hreach2))

/-- Running the reduction pass over a graph whose adjacency lists are already
pairwise irredundant never drops an edge: the edges map is left unchanged. -/
theorem reduceAux_id (m2 : List (Nat × List Nat)) (n : Nat)
    (hkc : ∀ i, i < n → i ∈ m2.map Prod.fst)
    (hF : ∀ u, (lookupD m2 u).Pairwise
      (fun a b => b ≠ a ∧ ¬ ReachP (lookupD m2) a b)) :
    ∀ (us : List Nat), (∀ u ∈ us, u < n) → us.Nodup →
    ∀ (st : RState), st.edges = m2 →
      (∀ w ∈ us, st.reach w = []) →
      (∀ w x, x ∈ st.reach w → ReachP (lookupD m2) w x) →
      (us.foldl reduceStep st).edges = m2 := by
  intro us
  induction us with
  | nil =>
    intro _ _ st he _ _
    exact he
  | cons u rest ih =>
    intro hb hnd st he h0 hsound
    have hacc0 : st.reach u = [] := h0 u (List.mem_cons_self _ _)
    have hes : lookupD st.edges u = lookupD m2 u := by rw [he]
    obtain ⟨-, -, -, S4, -⟩ :=
      scanEdges_spec st.reach (lookupD st.edges u) [] (st.reach u) (by simp)
    set res := scanEdges st.reach (lookupD st.edges u) [] (st.reach u) with hres
    have hpw : (lookupD st.edges u).Pairwise (fun a b => b ≠ a ∧ b ∉ st.reach a) := by
      rw [hes]
      refine (hF u).imp_of_mem ?_
      intro a b _ha _hb hR
      exact ⟨hR.1, fun hmem => hR.2 (hsound a b hmem)⟩
    have hkeep : res.1 = lookupD st.edges u := by
      rw [hres, hacc0]
      rw [scanEdges_keep_all st.reach (lookupD st.edges u) [] [] (by simp) hpw]
      simp
    have hedges : (reduceStep st u).edges = m2 := by
      show mapSet st.edges u res.1 = m2
      rw [hkeep, he]
      exact mapSet_self (hkc u (hb u (List.mem_cons_self _ _)))
    refine ih (fun v hv => hb v (List.mem_cons_of_mem _ hv)) hnd.of_cons
      (reduceStep st u) hedges ?_ ?_
    · intro w hw
      have hwu : w ≠ u := fun h => (List.nodup_cons.1 hnd).1 (h ▸ hw)
      show updF st.reach u res.2 w = []
      unfold updF
      rw [if_neg hwu]
      exact h0 w (List.mem_cons_of_mem _ hw)
    · intro w x hx
      have hx2 : x ∈ updF st.reach u res.2 w := hx
      by_cases hwu : w = u
      · subst hwu
        unfold updF at hx2
        rw [if_pos rfl] at hx2
        rcases S4 x hx2 with h | ⟨k, hk1, -, hk3⟩
        · rw [hacc0] at h
          simp at h
        · have hkm : k ∈ lookupD m2 w := by
            rw [← hes, ← hkeep]
            exact hk1
          rcases hk3 with rfl | hk3
          · exact Relation.TransGen.single hkm
          · exact Relation.TransGen.head hkm (hsound k x hk3)
      · unfold updF at hx2
        rw [if_neg hwu] at hx2
        exact hsound w x hx2

/-- Transitive reduction is idempotent on well-formed acyclic graphs with a
complete key set: a second pass leaves the edges map unchanged. -/
theorem reduce_idempotent (g : CausalGraph) (hwf : Wf g) (hac : Acyclic g)
    (hkc : KeysComplete g) :
    (ReduceTransitive (ReduceTransitive g)).edges = (ReduceTransitive g).edges := by
  set gr := ReduceTransitive g with hgr
  have hwfR : Wf gr := reduce_wf g hwf
  have hacR : Acyclic gr := reduce_acyclic g hwf hac
  have hkcR : KeysComplete gr := reduce_keysComplete g hkc
  have hFR : ∀ u, (lookupD gr.edges u).Pairwise
      (fun a b => b ≠ a ∧ ¬ ReachP (lookupD gr.edges) a b) :=
    reduced_pairwise g hwf hac
  obtain ⟨hnd2, hbnd2, -, -⟩ := topoSort_spec gr hwfR
  exact reduceAux_id gr.edges gr.events.length hkcR hFR (topoSort gr).reverse
    (fun u hu => hbnd2 u (List.mem_reverse.1 hu)) (List.nodup_reverse.2 hnd2)
    { edges := gr.edges, reach := fun _ => [] } rfl (fun w _ => rfl)
    (fun w x hx => absurd hx (List.not_mem_nil x))

/-! ### Safety checking: the depth-first traversal -/

theorem length_le_of_nodup_bounded {vis : List Nat} {n : Nat}
    (hnd : vis.Nodup) (hb : ∀ x ∈ vis, x < n) : vis.length ≤ n := by
  have h1 : vis.toFinset.card = vis.length := List.toFinset_card_of_nodup hnd
  have h2 : vis.toFinset ⊆ Finset.range n := by
    intro x hx
    rw [List.mem_toFinset] at hx
    exact Finset.mem_range.2 (hb x hx)
  have h3 := Finset.card_le_card h2
  rw [h1, Finset.card_range] at h3
  exact h3

/-- A list closed under successors contains everything reachable from any of
its members. -/
theorem mem_of_reachS_closed {g : CausalGraph} {S : List Nat}
    (hcl : ∀ x ∈ S, ∀ y ∈ edgeFun g x, y ∈ S) {k w : Nat} (hk : k ∈ S)
    (h : ReachS (edgeFun g) k w) : w ∈ S := by
  induction h with
  | refl => exact hk
  | tail hab hstep ih => exact hcl _ ih _ hstep

theorem verifyList_ok (g : CausalGraph)
    (post : Nat → Event → Bool) (fuel : Nat) (hF : VFok g post fuel) :
    ∀ es, VLok g post fuel es := by
  intro es
  induction es with
  | nil =>
    intro vis hnd hb _hes hfuel
    have hred : verifyList g post fuel [] vis = (true, vis) := by
      simp [verifyList]
    rw [hred]
    refine ⟨⟨[], by simp⟩, hnd, hb, ?_, ?_, ?_⟩
    · intro x hx hnx
      exact absurd hx hnx
    · intro _ 
      refine ⟨by simp, ?_⟩
      intro x hx hnx
      exact absurd hx hnx
    · intro h
      cases h
  | cons v es ih =>
    intro vis hnd hb hes hfuel
    obtain ⟨⟨newF, hnewF⟩, hndF, hbF, hmemF, hreachF, htrueF, hfalseF⟩ :=
      hF v vis hnd hb (hes v (List.mem_cons_self _ _)) hfuel
    set r := verifyFuture g post fuel v vis with hr
    by_cases hb1 : r.1 = true
    · have hred : verifyList g post fuel (v :: es) vis =
          verifyList g post fuel es r.2 := by
        simp only [verifyList, ← hr]
        rw [if_pos hb1]
      have hsub : ∀ x ∈ vis, x ∈ r.2 := by
        intro x hx
        rw [hnewF]
        exact List.mem_append_right _ hx
      have hfuel2 : g.events.length + 1 ≤ fuel + r.2.length := by
        have : vis.length ≤ r.2.length := by
          rw [hnewF, List.length_append]
          omega
        omega
      obtain ⟨⟨newL, hnewL⟩, hndL, hbL, hreachL, htrueL, hfalseL⟩ :=
        ih r.2 hndF hbF (fun w hw => hes w (List.mem_cons_of_mem _ hw)) hfuel2
      rw [hred]
      have hmono : ∀ x ∈ r.2, x ∈ (verifyList g post fuel es r.2).2 := by
        intro x hx
        rw [hnewL]
        exact List.mem_append_right _ hx
      refine ⟨⟨newL ++ newF, by rw [hnewL, hnewF]; simp⟩, hndL, hbL, ?_, ?_, ?_⟩
      · intro x hx hnx
        by_cases hx2 : x ∈ r.2
        · exact ⟨v, List.mem_cons_self _ _, hreachF x hx2 hnx⟩
        · obtain ⟨w, hw, hwx⟩ := hreachL x hx hx2
          exact ⟨w, List.mem_cons_of_mem _ hw, hwx⟩
      · intro htr
        obtain ⟨hesL, hclL⟩ := htrueL htr
        refine ⟨?_, ?_⟩
        · intro w hw
          rcases List.mem_cons.1 hw with hw | hw
          · subst hw
            exact hmono w (hmemF)
          · exact hesL w hw
        · intro x hx hnx
          by_cases hx2 : x ∈ r.2
          · obtain ⟨hp, hcl⟩ := htrueF hb1 x hx2 hnx
            exact ⟨hp, fun y hy => hmono y (hcl y hy)⟩
          · exact hclL x hx hx2
      · intro hfl
        obtain ⟨w, hw, wx, hwx, hpx⟩ := hfalseL hfl
        exact ⟨w, List.mem_cons_of_mem _ hw, wx, hwx, hpx⟩
    · rw [Bool.not_eq_true] at hb1
      have hred : verifyList g post fuel (v :: es) vis = r := by
        simp only [verifyList, ← hr]
        rw [if_neg (by rw [hb1]; simp)]
      rw [hred]
      refine ⟨⟨newF, hnewF⟩, hndF, hbF, ?_, ?_, ?_⟩
      · intro x hx hnx
        exact ⟨v, List.mem_cons_self _ _, hreachF x hx hnx⟩
      · intro htr
        rw [hb1] at htr
        cases htr
      · intro _
        obtain ⟨w, hw, hpw⟩ := hfalseF hb1
        exact ⟨v, List.mem_cons_self _ _, w, hw, hpw⟩

theorem verifyFuture_ok (g : CausalGraph) (hwf : Wf g)
    (post : Nat → Event → Bool) : ∀ fuel, VFok g post fuel := by
  intro fuel
  induction fuel with
  | zero =>
    intro u vis hnd hb _hu hfuel
    have := length_le_of_nodup_bounded hnd hb
    omega
  | succ fuel ih =>
    intro u vis hnd hb hu hfuel
    by_cases hv : u ∈ vis
    · have hred : verifyFuture g post (fuel + 1) u vis = (true, vis) := by
        simp [verifyFuture, hv]
      rw [hred]
      refine ⟨⟨[], by simp⟩, hnd, hb, hv, ?_, ?_, ?_⟩
      · intro x hx hnx
        exact absurd hx hnx
      · intro _ x hx hnx
        exact absurd hx hnx
      · intro h
        cases h
    · by_cases hp : post u (eventD g u) = true
      · have hred : verifyFuture g post (fuel + 1) u vis =
            verifyList g post fuel (edgeFun g u) (u :: vis) := by
          simp [verifyFuture, hv, hp]
        rw [hred]
        have hnd2 : (u :: vis).Nodup := List.nodup_cons.2 ⟨hv, hnd⟩
        have hb2 : ∀ x ∈ u :: vis, x < g.events.length := by
          intro x hx
          rcases List.mem_cons.1 hx with hx | hx
          · exact hx ▸ hu
          · exact hb x hx
        have hes2 : ∀ w ∈ edgeFun g u, w < g.events.length :=
          fun w hw => (source_lt_of_wf hwf hw).2
        have hfuel2 : g.events.length + 1 ≤ fuel + (u :: vis).length := by
          simp only [List.length_cons]
          omega
        obtain ⟨⟨newL, hnewL⟩, hndL, hbL, hreachL, htrueL, hfalseL⟩ :=
          verifyList_ok g post fuel ih (edgeFun g u) (u :: vis)
            hnd2 hb2 hes2 hfuel2
        have hmono : ∀ x ∈ u :: vis,
            x ∈ (verifyList g post fuel (edgeFun g u) (u :: vis)).2 := by
          intro x hx
          rw [hnewL]
          exact List.mem_append_right _ hx
        refine ⟨⟨newL ++ [u], by rw [hnewL]; simp⟩, hndL, hbL,
          hmono u (List.mem_cons_self _ _), ?_, ?_, ?_⟩
        · intro x hx hnx
          by_cases hxu : x = u
          · exact hxu ▸ Relation.ReflTransGen.refl
          · have hx2 : x ∉ u :: vis := by
              intro h
              rcases List.mem_cons.1 h with h | h
              · exact hxu h
              · exact hnx h
            obtain ⟨w, hw, hwx⟩ := hreachL x hx hx2
            exact Relation.ReflTransGen.head hw hwx
        · intro htr x hx hnx
          obtain ⟨hesL, hclL⟩ := htrueL htr
          by_cases hxu : x = u
          · subst hxu
            exact ⟨hp, fun y hy => hesL y hy⟩
          · have hx2 : x ∉ u :: vis := by
              intro h
              rcases List.mem_cons.1 h with h | h
              · exact hxu h
              · exact hnx h
            exact hclL x hx hx2
        · intro hfl
          obtain ⟨w, hw, wx, hwx, hpx⟩ := hfalseL hfl
          exact ⟨wx, Relation.ReflTransGen.head hw hwx, hpx⟩
      · have hred : verifyFuture g post (fuel + 1) u vis = (false, u :: vis) := by
          simp [verifyFuture, hv, hp]
        rw [hred]
        rw [Bool.not_eq_true] at hp
        refine ⟨⟨[u], by simp⟩, List.nodup_cons.2 ⟨hv, hnd⟩, ?_,
          List.mem_cons_self _ _, ?_, ?_, ?_⟩
        · intro x hx
          rcases List.mem_cons.1 hx with hx | hx
          · exact hx ▸ hu
          · exact hb x hx
        · intro x hx hnx
          rcases List.mem_cons.1 hx with hx | hx
          · exact hx ▸ Relation.ReflTransGen.refl
          · exact absurd hx hnx
        · intro h
          cases h
        · intro _
          exact ⟨u, Relation.ReflTransGen.refl, hp⟩

theorem checkTrigger_spec (g : CausalGraph) (hwf : Wf g)
    (post : Nat → Event → Bool) (i : Nat) :
    (checkTrigger g post i).2.Nodup ∧
    (∀ x ∈ (checkTrigger g post i).2,
      ∃ v ∈ edgeFun g i, ReachS (edgeFun g) v x) ∧
    ((checkTrigger g post i).1 = true ↔
      ∀ w, ReachP (edgeFun g) i w → post w (eventD g w) = true) := by
  obtain ⟨⟨new, hnew⟩, hnd, hbd, hor, htrue, hfalse⟩ :=
    verifyList_ok g post (g.events.length + 1)
      (verifyFuture_ok g hwf post (g.events.length + 1)) (edgeFun g i) []
      List.nodup_nil (by simp) (fun v hv => (source_lt_of_wf hwf hv).2) (by simp)
  have hct : checkTrigger g post i =
      verifyList g post (g.events.length + 1) (edgeFun g i) [] := rfl
  rw [hct]
  refine ⟨hnd, ?_, ?_⟩
  · intro x hx
    exact hor x hx (List.not_mem_nil x)
  · constructor
    · intro htr w hw
      obtain ⟨v, hv, hvw⟩ := Relation.TransGen.head'_iff.1 hw
      obtain ⟨hesub, hclosed⟩ := htrue htr
      have hcl2 : ∀ x ∈ (verifyList g post (g.events.length + 1) (edgeFun g i) []).2,
          ∀ y ∈ edgeFun g x,
            y ∈ (verifyList g post (g.events.length + 1) (edgeFun g i) []).2 :=
        fun x hx y hy => (hclosed x hx (List.not_mem_nil x)).2 y hy
      have hw2 := mem_of_reachS_closed hcl2 (hesub v hv) hvw
      exact (hclosed w hw2 (List.not_mem_nil w)).1
    · intro hall
      by_contra hne
      rw [Bool.not_eq_true] at hne
      obtain ⟨v, hv, w, hrw, hfw⟩ := hfalse hne
      have hP : ReachP (edgeFun g) i w := Relation.TransGen.head' hv hrw
      rw [hall w hP] at hfw
      cases hfw

/-- `CheckSafetyProperty` is exactly the reachability-indexed postcondition
check: true iff for every in-range trigger satisfying the precondition,
every node reachable from it (in one or more steps) passes the
postcondition. -/
theorem checkSafety_iff (g : CausalGraph) (hwf : Wf g) (pre : Event → Bool)
    (post : Nat → Event → Nat → Event → Bool) :
    CheckSafetyProperty g pre post = true ↔
      ∀ i < g.events.length, pre (eventD g i) = true →
        ∀ v, ReachP (edgeFun g) i v →
          post i (eventD g i) v (eventD g v) = true := by
  unfold CheckSafetyProperty
  rw [List.all_eq_true]
  constructor
  · intro h i hi hpre v hv
    have h2 : (if pre (eventD g i) = true then
        (checkTrigger g (fun fid fe => post i (eventD g i) fid fe) i).1
      else true) = true := h i (List.mem_range.2 hi)
    rw [if_pos hpre] at h2
    exact ((checkTrigger_spec g hwf
      (fun fid fe => post i (eventD g i) fid fe) i).2.2).1 h2 v hv
  · intro h i hi
    rw [List.mem_range] at hi
    show (if pre (eventD g i) = true then
        (checkTrigger g (fun fid fe => post i (eventD g i) fid fe) i).1
      else true) = true
    by_cases hpre : pre (eventD g i) = true
    · rw [if_pos hpre]
      exact ((checkTrigger_spec g hwf
        (fun fid fe => post i (eventD g i) fid fe) i).2.2).2
        (fun w hw => h i hi hpre w hw)
    · rw [if_neg hpre]

/-! ## The claims -/

/-- Claim C1: the claimed union-of-keys characterisation of `HappensBefore`
holds for the final `main` copy (part_001, lines 486-513), which iterates
the union of both key sets; but the `types/vectorClock.go` implementation
iterates only the receiver's keys and violates it: on `vc = {A:1}`,
`other = {A:1, B:100}` the union characterisation holds (every coordinate
`<=`, coordinate `B` strictly `<`), the union implementation returns true,
and the types implementation returns false. -/
theorem claim_C1 :
    (∀ a b : VC, HappensBefore a b = true ↔
      ((∀ p, vcGet a p ≤ vcGet b p) ∧ ∃ p, vcGet a p < vcGet b p)) ∧
    typesHappensBefore [("A", 1)] [("A", 1), ("B", 100)] = false ∧
    HappensBefore [("A", 1)] [("A", 1), ("B", 100)] = true :=
  ⟨happensBefore_iff, by decide, by decide⟩

/-- Claim C2: the final builder `NewCausalGraph` produces an edge `u -> v`
exactly when the clocks satisfy happens-before, in either direction
relative to trace order, with no self-edges and no duplicates; but the
other two cited builders test only forward trace-order pairs and miss
backward edges: on the two-event trace whose later trace entry
happens-before its earlier one (`trBack`), `NewCausalGraph` records the
edge `1 -> 0` (by the characterisation and the happens-before fact below)
while `dag.go BuildDAG` and the first `main` copy produce no edge at
all. -/
theorem claim_C2 :
    (∀ (tr : List Event) (u v : Nat), v ∈ edgeFun (NewCausalGraph tr) u ↔
      u < tr.length ∧ v < tr.length ∧
        HappensBefore (clockAt tr u) (clockAt tr v) = true) ∧
    (∀ (tr : List Event) (u : Nat), (edgeFun (NewCausalGraph tr) u).Nodup) ∧
    (∀ (tr : List Event) (u : Nat), u ∉ edgeFun (NewCausalGraph tr) u) ∧
    HappensBefore (clockAt trBack 1) (clockAt trBack 0) = true ∧
    (BuildDAG trBackT).edges = [] ∧
    (mainABuildCausalGraph trBackA).edges = [(0, []), (1, [])] := by
  refine ⟨mem_build_edges, nodup_build_edges, ?_, by decide, by decide, by decide⟩
  intro tr u hu
  have h := ((mem_build_edges tr u u).1 hu).2.2
  rw [hb_irrefl] at h
  cases h

/-- Claim C3: transitive reduction preserves reachability on every built
causal graph: `v` is reachable from `u` before `ReduceTransitive` iff it
is reachable after. -/
theorem claim_C3 (tr : List Event) (u v : Nat) :
    ReachS (edgeFun (NewCausalGraph tr)) u v ↔
      ReachS (edgeFun (ReduceTransitive (NewCausalGraph tr))) u v :=
  reduce_reach_iff (NewCausalGraph tr) (build_wf tr) u v

/-- Claim C4: the causal graph built from any finite trace is acyclic: no
event index is reachable from itself along one or more edges. -/
theorem claim_C4 (tr : List Event) (u : Nat) :
    ¬ ReachP (edgeFun (NewCausalGraph tr)) u u :=
  build_acyclic tr u

/-- Claim C5: on a well-formed acyclic graph, `CheckSafetyProperty` returns
true iff every reachable descendant of every precondition-satisfying
trigger passes the postcondition; and the per-trigger visited list never
repeats a node, so each descendant is evaluated at most once per
trigger. -/
theorem claim_C5 (g : CausalGraph) (hwf : Wf g) (_hac : Acyclic g)
    (pre : Event → Bool) (post : Nat → Event → Nat → Event → Bool) :
    (CheckSafetyProperty g pre post = true ↔
      ∀ i < g.events.length, pre (eventD g i) = true →
        ∀ v, ReachP (edgeFun g) i v →
          post i (eventD g i) v (eventD g v) = true) ∧
    ∀ (pb : Nat → Event → Bool) (i : Nat), (triggerVisited g pb i).Nodup :=
  ⟨checkSafety_iff g hwf pre post,
    fun pb i => (checkTrigger_spec g hwf pb i).1⟩

/-- Witness: the safety-checker correspondence instantiated on the concrete
three-event chain trace with trivial pre- and postconditions. -/
theorem claim_C5_witness :
    Wf (NewCausalGraph trChain) ∧ Acyclic (NewCausalGraph trChain) ∧
    ((CheckSafetyProperty (NewCausalGraph trChain) (fun _ => true)
        (fun _ _ _ _ => true) = true ↔
      ∀ i < (NewCausalGraph trChain).events.length, true = true →
        ∀ v, ReachP (edgeFun (NewCausalGraph trChain)) i v → true = true) ∧
      ∀ (pb : Nat → Event → Bool) (i : Nat),
        (triggerVisited (NewCausalGraph trChain) pb i).Nodup) :=
  ⟨build_wf trChain, build_acyclic trChain,
    claim_C5 (NewCausalGraph trChain) (build_wf trChain) (build_acyclic trChain)
      (fun _ => true) (fun _ _ _ _ => true)⟩

/-- Claim C6: no cycle check exists in the code.  On the two-node cycle the
topological sort returns an order of length 0, strictly shorter than the
node count 2, and `ReduceTransitive` silently proceeds on the incomplete
order, returning the graph unchanged, instead of aborting with a
`CycleDetected` invariant violation as the spec requires. -/
theorem claim_C6 :
    (topoSort cyclicGraph).length = 0 ∧
    (topoSort cyclicGraph).length < cyclicGraph.events.length ∧
    (ReduceTransitive cyclicGraph).edges = cyclicGraph.edges :=
  ⟨by decide, by decide, by decide⟩

/-- Claim C7: both `HappensBefore` implementations are strict: the union
variant is antisymmetric and irreflexive outright; the receiver-keys
variant is irreflexive outright and antisymmetric on clocks with
nonnegative entries (every clock the program builds, since entries only
ever start at 0 and increment). -/
theorem claim_C7 :
    (∀ a b : VC, ¬(HappensBefore a b = true ∧ HappensBefore b a = true)) ∧
    (∀ c : VC, HappensBefore c c = false) ∧
    (∀ a b : VC, VCNonneg a →
      ¬(typesHappensBefore a b = true ∧ typesHappensBefore b a = true)) ∧
    (∀ c : VC, typesHappensBefore c c = false) :=
  ⟨hb_antisymm, hb_irrefl, fun a b ha => typesHb_antisymm a b ha, typesHb_irrefl⟩

/-- Claim C8: `ReduceTransitive` is idempotent on every built causal graph:
a second application leaves the edge map unchanged. -/
theorem claim_C8 (tr : List Event) :
    (ReduceTransitive (ReduceTransitive (NewCausalGraph tr))).edges =
      (ReduceTransitive (NewCausalGraph tr)).edges :=
  reduce_idempotent (NewCausalGraph tr) (build_wf tr) (build_acyclic tr)
    (build_keysComplete tr)

/-- Claim C9: the builder's edges map has an entry for every index
`0 .. n-1` (so consumers never hit a missing key), and every key and every
successor in any entry is one of those `n` indices. -/
theorem claim_C9 (tr : List Event) :
    (∀ i, i < tr.length → ∃ l, lookupO (NewCausalGraph tr).edges i = some l) ∧
    ∀ e ∈ (NewCausalGraph tr).edges, e.1 < tr.length ∧ ∀ v ∈ e.2, v < tr.length := by
  constructor
  · intro i hi
    have hkey : i ∈ (NewCausalGraph tr).edges.map Prod.fst := by
      rw [build_keys]
      exact List.mem_range.2 hi
    cases ho : lookupO (NewCausalGraph tr).edges i with
    | none => exact absurd hkey ((lookupO_eq_none_iff _ _).1 ho)
    | some l => exact ⟨l, rfl⟩
  · exact (build_wf tr).2

/-- Claim C10: on a well-formed acyclic graph the checker never evaluates
the postcondition at the trigger itself (the trigger never enters its own
visited set, since traversal starts at its direct successors and no path
returns to it), and a run in which every precondition-satisfying trigger
has no outgoing edges always succeeds. -/
theorem claim_C10 (g : CausalGraph) (hwf : Wf g) (hac : Acyclic g) :
    (∀ (pb : Nat → Event → Bool) (i : Nat), i ∉ triggerVisited g pb i) ∧
    ∀ (pre : Event → Bool) (post : Nat → Event → Nat → Event → Bool),
      (∀ i, i < g.events.length → pre (eventD g i) = true → edgeFun g i = []) →
      CheckSafetyProperty g pre post = true := by
  constructor
  · intro pb i hmem
    obtain ⟨-, hsrc, -⟩ := checkTrigger_spec g hwf pb i
    obtain ⟨v, hv, hvi⟩ := hsrc i hmem
    exact hac i (Relation.TransGen.head' hv hvi)
  · intro pre post hnoedge
    rw [checkSafety_iff g hwf pre post]
    intro i hi hpre v hv
    obtain ⟨w, hw, -⟩ := Relation.TransGen.head'_iff.1 hv
    have hw2 : w ∈ edgeFun g i := hw
    rw [hnoedge i hi hpre] at hw2
    exact absurd hw2 (List.not_mem_nil w)

/-- Witness: the trigger-exclusion properties instantiated on the concrete
three-event chain trace. -/
theorem claim_C10_witness :
    Wf (NewCausalGraph trChain) ∧ Acyclic (NewCausalGraph trChain) ∧
    ((∀ (pb : Nat → Event → Bool) (i : Nat),
        i ∉ triggerVisited (NewCausalGraph trChain) pb i) ∧
      ∀ (pre : Event → Bool) (post : Nat → Event → Nat → Event → Bool),
        (∀ i, i < (NewCausalGraph trChain).events.length →
          pre (eventD (NewCausalGraph trChain) i) = true →
          edgeFun (NewCausalGraph trChain) i = []) →
        CheckSafetyProperty (NewCausalGraph trChain) pre post = true) :=
  ⟨build_wf trChain, build_acyclic trChain,
    claim_C10 (NewCausalGraph trChain) (build_wf trChain) (build_acyclic trChain)⟩

end TraceAnalysis
